import Mathlib

/-!
A shallow embedding of the CDCL core in `src/ratsat/src/core.rs` (a Rust port
of the MiniSat solver core), together with proofs about the embedded
operations.

Modelling conventions:
* machine integers become `Nat`/`Int`; the `u64` statistics counters wrap
  modulo `2 ^ 64` exactly where the source can wrap them;
* the clause arena is a list of clauses, a `CRef` is the index into that list;
* `VMap` containers become total functions from the variable index, watch
  lists become a total function from literals to watcher lists (the dense
  on-demand-grown arrays of the source realize exactly such maps);
* loops become structural recursion; the one loop with a data-dependent bound
  (the outer queue loop of `propagate`, which grows the trail it walks) takes
  a fuel argument and the result type `Res` distinguishes a genuine return
  from fuel exhaustion and from a failed runtime assertion (a Rust panic).

Types that live in the crate but outside `core.rs` (`Lit`, `lbool`,
`ClauseAllocator`, `OccLists`, the heap) are modelled from the spec; each such
definition carries a doc comment starting with `Modelled from the spec:`.
-/

set_option autoImplicit false

namespace Ratsat

/-- Modelled from the spec: three-valued logic with values TRUE, FALSE,
UNDEF. -/
inductive LBool where
  | ltrue : LBool
  | lfalse : LBool
  | lundef : LBool
deriving DecidableEq, Repr

open LBool

/-- Modelled from the spec: XOR of an `lbool` with a sign bit flips
TRUE and FALSE but leaves UNDEF fixed. -/
def LBool.xorSign : LBool → Bool → LBool
  | ltrue, true => lfalse
  | lfalse, true => ltrue
  | lundef, _ => lundef
  | b, false => b

/-- Modelled from the spec: `lbool::new b` turns a Boolean into TRUE or
FALSE. -/
def LBool.ofBool : Bool → LBool
  | true => ltrue
  | false => lfalse

/-- Modelled from the spec: a literal is a variable paired with a sign bit;
it is encoded as the index `2 * var + sign`. The sign bit true means the
negated occurrence of the variable. -/
structure Lit where
  v : Nat
  s : Bool
deriving DecidableEq, Repr

/-- Modelled from the spec: the array index `2 * var + sign` of a literal,
the key the derived ordering on literals compares. -/
def Lit.idx (l : Lit) : Nat := 2 * l.v + (if l.s then 1 else 0)

/-- Modelled from the spec: negation flips the sign bit. -/
def Lit.neg (l : Lit) : Lit := ⟨l.v, !l.s⟩

/-- Modelled from the spec: the sentinel literal `Lit::UNDEF`
(bit pattern `!1` of a `u32`, that is variable `2 ^ 31 - 1`, positive). -/
def Lit.undef : Lit := ⟨2147483647, false⟩

/-- Modelled from the spec: the Boolean comparison the sort of
`add_clause_reuse` uses, i.e. the derived order on the literal encoding. -/
def Lit.le (a b : Lit) : Bool := decide (a.idx ≤ b.idx)

/-- The sentinel clause reference `CRef::UNDEF` (`u32` all-ones). -/
def crefUndef : Nat := 4294967295

/-- A watch list entry: the watched clause and its blocker literal
(from `core.rs`). -/
structure Watcher where
  cref : Nat
  blocker : Lit
deriving DecidableEq, Repr

/-- Equality on `Watcher` from `core.rs` compares the clause reference only
and ignores the blocker. -/
def Watcher.eqb (a b : Watcher) : Bool := decide (a.cref = b.cref)

/-- The dummy watcher used to pad `Vec::resize` in `propagate`. -/
def Watcher.dummy : Watcher := ⟨crefUndef, Lit.undef⟩

/-- Per-variable reason and level data (from `core.rs`). -/
structure VarData where
  reason : Nat
  level : Int
deriving DecidableEq, Repr

/-- Modelled from the spec: a clause is a sequence of literals plus header
bits: the `learnt` flag, the two-bit `mark` (0 live, 1 removed), the
`reloced` flag and, after relocation, the stored new address. -/
structure Clause where
  lits : List Lit
  learnt : Bool
  mark : Nat
  reloced : Bool
  relocTarget : Nat
deriving DecidableEq, Repr

/-- The default clause a dangling reference dereferences to in the model. -/
def Clause.default : Clause := ⟨[], false, 0, false, 0⟩

/-- Modelled from the spec: the arena words a clause occupies: a header word,
one word per literal, and one extra word for the activity of a learnt
clause. -/
def Clause.numWords (c : Clause) : Nat :=
  1 + c.lits.length + (if c.learnt then 1 else 0)

/-- Modelled from the spec: the clause arena. A clause reference is an index
into the clause list; `wasted` counts the words freed so far. -/
structure CAlloc where
  clauses : List Clause
  wasted : Nat
deriving DecidableEq, Repr

/-- Dereference a clause reference (a dangling one yields the default
clause, standing for arbitrary arena bytes). -/
def CAlloc.getC (ca : CAlloc) (cr : Nat) : Clause :=
  ca.clauses.getD cr Clause.default

/-- Overwrite the clause stored at a reference. -/
def CAlloc.setC (ca : CAlloc) (cr : Nat) (c : Clause) : CAlloc :=
  { ca with clauses := ca.clauses.set cr c }

/-- Modelled from the spec: `alloc` appends a fresh live clause and returns
(here implicitly, as `(ca.clauses.length)` before the push) its reference. -/
def CAlloc.alloc (ca : CAlloc) (lits : List Lit) (learnt : Bool) : CAlloc :=
  { ca with clauses := ca.clauses ++ [⟨lits, learnt, 0, false, 0⟩] }

/-- Modelled from the spec: `free` only adds the word count of the clause to
`wasted`; nothing is removed physically. -/
def CAlloc.free (ca : CAlloc) (cr : Nat) : CAlloc :=
  { ca with wasted := ca.wasted + (ca.getC cr).numWords }

/-- Accounting helper of `remove_satisfied`: `free_amount` adds a raw word
count to `wasted`. -/
def CAlloc.freeAmount (ca : CAlloc) (n : Nat) : CAlloc :=
  { ca with wasted := ca.wasted + n }

/-- Modelled from the spec: the arena length in words, the total of the word
counts of the stored clauses. -/
def CAlloc.lenWords (ca : CAlloc) : Nat :=
  (ca.clauses.map Clause.numWords).sum

/-- The solver state: the fields of `Solver` and of its sub-struct `SolverV`
from `core.rs` that the embedded operations touch, flattened into one
record. -/
structure Solver where
  ok : Bool
  clauses : List Nat
  learnts : List Nat
  assigns : Nat → LBool
  trail : List Lit
  trail_lim : List Nat
  vardata : Nat → VarData
  watches : Lit → List Watcher
  dirty : Lit → Bool
  ca : CAlloc
  qhead : Nat
  simp_db_assigns : Int
  simp_db_props : Int
  propagations : Nat
  remove_satisfied : Bool
  released_vars : List Nat
  free_vars : List Nat
  seen : Nat → Bool
  next_var : Nat
  decision : Nat → Bool
  order_heap : List Nat
  num_clauses : Nat
  num_learnts : Nat
  clauses_literals : Nat
  learnts_literals : Nat
  garbage_frac : ℚ

/-- Wrapping `u64` addition, for the clause statistics counters. -/
def add64 (a b : Nat) : Nat := (a + b) % 18446744073709551616

/-- Wrapping `u64` subtraction, for the clause statistics counters. -/
def sub64 (a b : Nat) : Nat :=
  (a + (18446744073709551616 - b % 18446744073709551616)) % 18446744073709551616

namespace Solver

/-- `SolverV::value`: the current assignment of a variable. -/
def value (s : Solver) (x : Nat) : LBool := s.assigns x

/-- `SolverV::value_lit`: `assigns[x.var()] ^ x.sign()`. -/
def value_lit (s : Solver) (x : Lit) : LBool := (s.assigns x.v).xorSign x.s

/-- `SolverV::num_assigns`: the trail length. -/
def num_assigns (s : Solver) : Nat := s.trail.length

/-- `SolverV::decision_level`: the number of trail separators. -/
def decision_level (s : Solver) : Nat := s.trail_lim.length

/-- `SolverV::reason`: the reason clause recorded for a variable. -/
def reason (s : Solver) (x : Nat) : Nat := (s.vardata x).reason

/-- `SolverV::unchecked_enqueue`: record the assignment making `p` true,
store reason and level, push `p` on the trail. -/
def unchecked_enqueue (s : Solver) (p : Lit) (from_ : Nat) : Solver :=
  { s with
    assigns := Function.update s.assigns p.v (LBool.ofBool !p.s)
    vardata := Function.update s.vardata p.v (VarData.mk from_ (s.decision_level : Int))
    trail := s.trail ++ [p] }

/-- `SolverV::satisfied`: some literal of the clause is TRUE. -/
def satisfiedClause (s : Solver) (c : Clause) : Bool :=
  c.lits.any (fun lit => s.value_lit lit == ltrue)

/-- `SolverV::locked`: the clause is the recorded reason of its own first
literal, which is currently TRUE. `ClauseRef` equality is reference
equality, so `ca.get_ref(reason) == c` holds exactly when the reason handle
is the handle of `c` itself (the spec words: the reason pointer equals this
`CRef`). -/
def locked (s : Solver) (cr : Nat) : Bool :=
  let c := s.ca.getC cr
  let c0 := c.lits.getD 0 Lit.undef
  let r := s.reason c0.v
  s.value_lit c0 == ltrue && r != crefUndef && r == cr

/-- `Solver::attach_clause`: push a watcher on the lists of the negations of
the first two literals and bump the statistics counters. -/
def attach_clause (s : Solver) (cr : Nat) : Solver :=
  let c := s.ca.getC cr
  let c0 := c.lits.getD 0 Lit.undef
  let c1 := c.lits.getD 1 Lit.undef
  let size := c.lits.length
  let s := { s with
    watches := Function.update s.watches c0.neg (s.watches c0.neg ++ [Watcher.mk cr c1]) }
  let s := { s with
    watches := Function.update s.watches c1.neg (s.watches c1.neg ++ [Watcher.mk cr c0]) }
  if c.learnt then
    { s with num_learnts := add64 s.num_learnts 1
             learnts_literals := add64 s.learnts_literals size }
  else
    { s with num_clauses := add64 s.num_clauses 1
             clauses_literals := add64 s.clauses_literals size }

/-- Modelled from the spec: `OccLists::smudge` flags the list of a literal
as needing lazy-deletion cleaning before its next read. -/
def smudge (s : Solver) (p : Lit) : Solver :=
  { s with dirty := Function.update s.dirty p true }

/-- The lazy branch of `SolverV::detach_clause_strict`: smudge the two watch
lists and decrement the statistics counters. -/
def detach_clause_lazy (s : Solver) (cr : Nat) : Solver :=
  let c := s.ca.getC cr
  let c0 := c.lits.getD 0 Lit.undef
  let c1 := c.lits.getD 1 Lit.undef
  let csize := c.lits.length
  let s := smudge s c0.neg
  let s := smudge s c1.neg
  if c.learnt then
    { s with num_learnts := sub64 s.num_learnts 1
             learnts_literals := sub64 s.learnts_literals csize }
  else
    { s with num_clauses := sub64 s.num_clauses 1
             clauses_literals := sub64 s.clauses_literals csize }

/-- `SolverV::detach_clause_strict`. In the strict mode the two watchers are
removed by position (watcher equality compares the `cref` only); a missing
watcher is an `expect` panic, modelled as `none`. The lazy mode smudges. -/
def detach_clause_strict (s : Solver) (cr : Nat) (strict : Bool) :
    Option Solver :=
  if strict then
    let c := s.ca.getC cr
    let c0 := c.lits.getD 0 Lit.undef
    let c1 := c.lits.getD 1 Lit.undef
    let csize := c.lits.length
    match (s.watches c0.neg).findIdx? (fun x => x.eqb (Watcher.mk cr c1)) with
    | none => none
    | some pos =>
      let s := { s with
        watches := Function.update s.watches c0.neg
          ((s.watches c0.neg).eraseIdx pos) }
      match (s.watches c1.neg).findIdx? (fun x => x.eqb (Watcher.mk cr c0)) with
      | none => none
      | some pos2 =>
        let s := { s with
          watches := Function.update s.watches c1.neg
            ((s.watches c1.neg).eraseIdx pos2) }
        some (if c.learnt then
          { s with num_learnts := sub64 s.num_learnts 1
                   learnts_literals := sub64 s.learnts_literals csize }
        else
          { s with num_clauses := sub64 s.num_clauses 1
                   clauses_literals := sub64 s.clauses_literals csize })
  else
    some (detach_clause_lazy s cr)

/-- `SolverV::detach_clause`: the lazy detach. -/
def detach_clause (s : Solver) (cr : Nat) : Solver :=
  detach_clause_lazy s cr

/-- `SolverV::remove_clause`: lazily detach, clear the reason pointer if the
clause is locked, mark the clause removed and free it. -/
def remove_clause (s : Solver) (cr : Nat) : Solver :=
  let s := s.detach_clause cr
  let s :=
    if s.locked cr then
      let c0 := (s.ca.getC cr).lits.getD 0 Lit.undef
      let vd := VarData.mk crefUndef (s.vardata c0.v).level
      { s with vardata := Function.update s.vardata c0.v vd }
    else s
  let s := { s with ca := s.ca.setC cr { s.ca.getC cr with mark := 1 } }
  { s with ca := s.ca.free cr }

end Solver

/-- A minimal well-formed solver state over no variables: the state
`Solver::default` reaches (restricted to the modelled fields). -/
def baseSolver : Solver where
  ok := true
  clauses := []
  learnts := []
  assigns := fun _ => lundef
  trail := []
  trail_lim := []
  vardata := fun _ => ⟨crefUndef, 0⟩
  watches := fun _ => []
  dirty := fun _ => false
  ca := ⟨[], 0⟩
  qhead := 0
  simp_db_assigns := -1
  simp_db_props := 0
  propagations := 0
  remove_satisfied := true
  released_vars := []
  free_vars := []
  seen := fun _ => false
  next_var := 0
  decision := fun _ => true
  order_heap := []
  num_clauses := 0
  num_learnts := 0
  clauses_literals := 0
  learnts_literals := 0
  garbage_frac := 1 / 5

/-- A two-variable state holding the single input clause `[x0, x1]`,
unattached. -/
def exTwoLit : Solver :=
  { baseSolver with
    ca := ⟨[⟨[⟨0, false⟩, ⟨1, false⟩], false, 0, false, 0⟩], 0⟩
    next_var := 2 }

/-- The result of a modelled loop: a normal return, a failed runtime
assertion (a Rust panic), or exhaustion of the artificial fuel a loop with a
data-dependent bound receives. -/
inductive Res (α : Type) where
  | ok : α → Res α
  | assertFail : Res α
  | fuelOut : Res α

namespace Solver

/-- The copy loop of the conflict branch of `propagate`:
`while i < end { ws[j] = ws[i]; j += 1; i += 1 }`. The fuel it receives at
its call site is the exact remaining iteration count. -/
def copyRest : Nat → List Watcher → Nat → Nat → Nat →
    List Watcher × Nat × Nat
  | 0, ws, i, j, _ => (ws, i, j)
  | fuel + 1, ws, i, j, endIdx =>
    if i < endIdx then
      copyRest fuel (ws.set j (ws.getD i Watcher.dummy)) (i + 1) (j + 1) endIdx
    else (ws, i, j)

/-- The search for a new watch in `propagate` (`for k in 2..c.size()`). As
in the source, there is no `continue` after a new watch is installed: the
loop keeps scanning, swapping `c[1]` with every later non-false literal and
pushing a watcher each time. `assert_ne!(!c[1], p)` becomes `assertFail`. -/
def propKLoop : Nat → Solver → Lit → Nat → Watcher → Nat → Nat → Res Solver
  | 0, _, _, _, _, _, _ => .fuelOut
  | fuel + 1, s, p, cr, w, k, sz =>
    if k < sz then
      let c := s.ca.getC cr
      let ck := c.lits.getD k Lit.undef
      if s.value_lit ck ≠ lfalse then
        let lits1 := (c.lits.set 1 ck).set k p.neg
        let s1 := { s with ca := s.ca.setC cr { c with lits := lits1 } }
        if ck.neg = p then .assertFail
        else
          let nw := Function.update s1.watches ck.neg (s1.watches ck.neg ++ [w])
          let s2 := { s1 with watches := nw }
          propKLoop fuel s2 p cr w (k + 1) sz
      else propKLoop fuel s p cr w (k + 1) sz
    else .ok s

/-- Modelled from the spec: `OccLists::lookup_mut_pred` hands out the watch
list of `p`, first cleaning it (dropping watchers whose clause has mark 1)
when the list was smudged. -/
def lookup_clean (s : Solver) (p : Lit) : List Watcher × Solver :=
  if s.dirty p then
    let ws := (s.watches p).filter (fun w => !((s.ca.getC w.cref).mark == 1))
    let s2 := { s with watches := Function.update s.watches p ws,
                       dirty := Function.update s.dirty p false }
    (ws, s2)
  else (s.watches p, s)

/-- `Vec::resize(n, dummy)`: truncate to length `n`, or pad with the dummy
watcher. -/
def resizeW (ws : List Watcher) (n : Nat) : List Watcher :=
  if n ≤ ws.length then ws.take n
  else ws ++ List.replicate (n - ws.length) Watcher.dummy

/-- One pass over the watch list of the dequeued literal `p`: the inner
`while i < end` loop of `propagate`, with read cursor `i` and write cursor
`j`. Returns the state, the worked-on list, both cursors and the conflict
reference. The fuel it receives is sufficient for the iteration count,
which is bounded by the fixed `endIdx`. -/
def propInner : Nat → Solver → Lit → List Watcher → Nat → Nat → Nat → Nat →
    Res (Solver × List Watcher × Nat × Nat × Nat)
  | 0, _, _, _, _, _, _, _ => .fuelOut
  | fuel + 1, s, p, ws, i, j, endIdx, confl =>
    if i < endIdx then
      let wi := ws.getD i Watcher.dummy
      let blocker := wi.blocker
      if s.value_lit blocker = ltrue then
        propInner fuel s p (ws.set j wi) (i + 1) (j + 1) endIdx confl
      else
        let cr := wi.cref
        let c := s.ca.getC cr
        let falseLit := p.neg
        let lits0 :=
          if c.lits.getD 0 Lit.undef = falseLit then
            (c.lits.set 0 (c.lits.getD 1 Lit.undef)).set 1 falseLit
          else c.lits
        let s1 := { s with ca := s.ca.setC cr { c with lits := lits0 } }
        let i1 := i + 1
        let first := lits0.getD 0 Lit.undef
        let w : Watcher := ⟨cr, first⟩
        if first ≠ blocker ∧ s1.value_lit first = ltrue then
          propInner fuel s1 p (ws.set j w) i1 (j + 1) endIdx confl
        else
          match propKLoop (lits0.length + 1) s1 p cr w 2 lits0.length with
          | .assertFail => .assertFail
          | .fuelOut => .fuelOut
          | .ok s2 =>
            let ws1 := ws.set j w
            let j1 := j + 1
            if s2.value_lit first = lfalse then
              let s3 := { s2 with qhead := s2.trail.length }
              let r := copyRest (endIdx - i1) ws1 i1 j1 endIdx
              propInner fuel s3 p r.1 r.2.1 r.2.2 endIdx cr
            else
              propInner fuel (s2.unchecked_enqueue first cr) p ws1 i1 j1
                endIdx confl
    else .ok (s, ws, i, j, confl)

/-- The outer queue loop of `propagate` (`while qhead < trail.len()`): each
iteration dequeues `p = trail[qhead]`, takes the watch list of `p` under
lazy-deletion cleaning, runs the inner pass and writes the list back after
`ws.resize(i - j, dummy)`. -/
def propOuter : Nat → Solver → Nat → Nat → Res (Nat × Solver × Nat)
  | 0, _, _, _ => .fuelOut
  | fuel + 1, s, confl, numProps =>
    if s.qhead < s.trail.length then
      let p := s.trail.getD s.qhead Lit.undef
      let s0 := { s with qhead := s.qhead + 1 }
      let pair := lookup_clean s0 p
      let ws := pair.1
      let s1 := pair.2
      let endIdx := ws.length
      match propInner (endIdx + 2) s1 p ws 0 0 endIdx confl with
      | .assertFail => .assertFail
      | .fuelOut => .fuelOut
      | .ok (s2, ws2, i2, j2, confl2) =>
        let nw := Function.update s2.watches p (resizeW ws2 (i2 - j2))
        let s3 := { s2 with watches := nw }
        propOuter fuel s3 confl2 (numProps + 1)
    else .ok (confl, s, numProps)

/-- `Solver::propagate`, with fuel for the outer queue loop: returns the
conflict reference (`CRef::UNDEF` if none) and the final state, after
charging the propagation count to `propagations` and `simp_db_props`. -/
def propagateF (fuel : Nat) (s : Solver) : Res (Nat × Solver) :=
  match propOuter fuel s crefUndef 0 with
  | .assertFail => .assertFail
  | .fuelOut => .fuelOut
  | .ok (confl, s1, numProps) =>
    let s2 := { s1 with propagations := add64 s1.propagations numProps,
                        simp_db_props := s1.simp_db_props - (numProps : Int) }
    .ok (confl, s2)

end Solver

/-- A three-variable state: the trail holds the true literal `x0`, still to
be propagated, and the attached clause 0 is `[x1, ¬x0, x2]` with `x1`, `x2`
unassigned. Its watcher sits in the list of `x0` with blocker `x1`. -/
def exC1 : Solver :=
  { baseSolver with
    ca := ⟨[⟨[⟨1, false⟩, ⟨0, true⟩, ⟨2, false⟩], false, 0, false, 0⟩], 0⟩
    next_var := 3
    assigns := fun v => if v = 0 then ltrue else lundef
    trail := [⟨0, false⟩]
    qhead := 0
    watches := fun l =>
      if l = ⟨1, true⟩ then [⟨0, ⟨0, true⟩⟩]
      else if l = ⟨0, false⟩ then [⟨0, ⟨1, false⟩⟩]
      else []
    num_clauses := 1
    clauses_literals := 3 }

/-- The outcome of `propagate` on `exC1`, as an option. -/
def exC1run : Option (Nat × Solver) :=
  match Solver.propagateF 5 exC1 with
  | .ok r => some r
  | _ => none

/-- A two-variable state: clause 0 is `[¬x0, x1]`, both literals true, the
watcher in the list of `x0` has the true blocker `x1`, and `x0` is the one
literal left to propagate. The inner loop keeps this watcher
(`ws[j] = ws[i]`, both cursors end at 1). -/
def exC2 : Solver :=
  { baseSolver with
    ca := ⟨[⟨[⟨0, true⟩, ⟨1, false⟩], false, 0, false, 0⟩], 0⟩
    next_var := 2
    assigns := fun v => if v = 0 then ltrue else if v = 1 then ltrue else lundef
    trail := [⟨1, false⟩, ⟨0, false⟩]
    qhead := 1
    watches := fun l =>
      if l = ⟨0, false⟩ then [⟨0, ⟨1, false⟩⟩]
      else if l = ⟨1, true⟩ then [⟨0, ⟨0, true⟩⟩]
      else []
    num_clauses := 1
    clauses_literals := 2 }

/-- The outcome of `propagate` on `exC2`, as an option. -/
def exC2run : Option (Nat × Solver) :=
  match Solver.propagateF 5 exC2 with
  | .ok r => some r
  | _ => none

/-- The trail invariant of reachable states: every literal on the trail
evaluates to TRUE under the current assignment. -/
def TrailInv (s : Solver) : Prop := ∀ l ∈ s.trail, s.value_lit l = ltrue

/-- The state `propagate` reaches from `exC1`. -/
def exC3res : Solver :=
  match Solver.propagateF 5 exC1 with
  | .ok r => r.2
  | _ => baseSolver

namespace Solver

/-- The deduplication scan of `add_clause_reuse` over the sorted literal
vector: `last_lit` starts at `Lit::UNDEF`, `kept` collects the literals
written back through the write cursor `j`. An `error` result models the
early `return true` (a true or tautological literal was met); `ok` returns
the kept literals, the content of the vector after `resize(j)`. -/
def add_clause_scan (s : Solver) : List Lit → Lit → List Lit →
    Except (List Lit) (List Lit)
  | [], _, kept => .ok kept
  | l :: rest, lastLit, kept =>
    let value := s.value_lit l
    if value = ltrue ∨ l = lastLit.neg then .error kept
    else if value ≠ lfalse ∧ l ≠ lastLit then
      add_clause_scan s rest l (kept ++ [l])
    else add_clause_scan s rest lastLit kept

/-- `Solver::add_clause_reuse`: returns the Boolean result, the new solver
state, and the content of the reused literal vector (on the early return
the positions past the write cursor keep the sorted values). -/
def add_clause_reuse (s : Solver) (clause : List Lit) :
    Bool × Solver × List Lit :=
  if s.ok = false then (false, s, clause)
  else
    let sorted := clause.mergeSort Lit.le
    match add_clause_scan s sorted Lit.undef [] with
    | .error kept => (true, s, kept ++ sorted.drop kept.length)
    | .ok kept =>
      if kept.length = 0 then (false, { s with ok := false }, kept)
      else if kept.length = 1 then
        (true, s.unchecked_enqueue (kept.getD 0 Lit.undef) crefUndef, kept)
      else
        let cr := s.ca.clauses.length
        let s1 := { s with ca := s.ca.alloc kept false }
        let s2 := { s1 with clauses := s1.clauses ++ [cr] }
        (true, s2.attach_clause cr, kept)

/-- The clause-trimming loop of `remove_satisfied`
(`while k < end { if value(c[k]) == FALSE { end -= 1; c[k] = c[end] } else
{ k += 1 } }`); the caller passes ample fuel for the bounded iteration
count. Returns the literal list and the final `end`. -/
def trimLoop : Nat → Solver → List Lit → Nat → Nat → List Lit × Nat
  | 0, _, lits, _, endIdx => (lits, endIdx)
  | fuel + 1, s, lits, k, endIdx =>
    if k < endIdx then
      if s.value_lit (lits.getD k Lit.undef) = lfalse then
        trimLoop fuel s (lits.set k (lits.getD (endIdx - 1) Lit.undef)) k
          (endIdx - 1)
      else trimLoop fuel s lits (k + 1) endIdx
    else (lits, endIdx)

/-- The `retain` body of `Solver::remove_satisfied` over a clause-reference
list: satisfied clauses are removed (and dropped from the list), survivors
are trimmed of false literals at positions 2 and beyond, with the freed
words charged to the allocator. -/
def remove_satisfied_loop : Solver → List Nat → Solver × List Nat
  | s, [] => (s, [])
  | s, cr :: rest =>
    if s.satisfiedClause (s.ca.getC cr) then
      let s1 := s.remove_clause cr
      let r := remove_satisfied_loop s1 rest
      (r.1, r.2)
    else
      let c := s.ca.getC cr
      let origSize := c.lits.length
      let t := trimLoop (origSize + 1) s c.lits 2 origSize
      let s1 := { s with ca := s.ca.setC cr { c with lits := t.1.take t.2 } }
      let s1b := { s1 with ca := s1.ca.freeAmount (origSize - t.2) }
      let r := remove_satisfied_loop s1b rest
      (r.1, cr :: r.2)

/-- `Solver::remove_satisfied`: shrink the learnt list (flag true) or the
input-clause list (flag false) to the non-satisfied clauses. -/
def remove_satisfied_fn (s : Solver) (shrink_learnts : Bool) : Solver :=
  if shrink_learnts then
    let r := remove_satisfied_loop s s.learnts
    { r.1 with learnts := r.2 }
  else
    let r := remove_satisfied_loop s s.clauses
    { r.1 with clauses := r.2 }

/-- `Solver::rebuild_order_heap`: collect the decision-eligible unassigned
variables in index order and build the heap from them. Modelled from the
spec: the heap build is represented by its membership (the heap holds a
permutation of the given variables). -/
def rebuild_order_heap (s : Solver) : Solver :=
  let vs := (List.range s.next_var).filter
    (fun v => s.decision v && (s.value v == lundef))
  { s with order_heap := vs }

/-- Modelled from the spec: `ClauseAllocator::reloc`. If the clause was
already relocated, hand back the stored new address; otherwise copy it into
the new arena, mark the old header relocated with the new address, and
return the new reference. -/
def caReloc (ca toA : CAlloc) (cr : Nat) : CAlloc × CAlloc × Nat :=
  let c := ca.getC cr
  if c.reloced then (ca, toA, c.relocTarget)
  else
    let newCr := toA.clauses.length
    let to2 := { toA with clauses := toA.clauses ++ [c] }
    let ca2 := ca.setC cr { c with reloced := true, relocTarget := newCr }
    (ca2, to2, newCr)

/-- Modelled from the spec: `OccLists::clean_all` filters the deleted
watchers out of every smudged list and clears the smudge flags. -/
def clean_all (s : Solver) : Solver :=
  { s with
    watches := fun l =>
      if s.dirty l then
        (s.watches l).filter (fun w => !((s.ca.getC w.cref).mark == 1))
      else s.watches l,
    dirty := fun _ => false }

/-- Relocate the clause references of one watch list in order. -/
def relocWatcherList (ca toA : CAlloc) :
    List Watcher → CAlloc × CAlloc × List Watcher
  | [] => (ca, toA, [])
  | w :: rest =>
    let r := caReloc ca toA w.cref
    let r2 := relocWatcherList r.1 r.2.1 rest
    (r2.1, r2.2.1, { w with cref := r.2.2 } :: r2.2.2)

/-- Relocate the watch lists of the given literals in order (the
`for v in 0..num_vars, for s in 0..2` walk of `reloc_all`). -/
def relocLits (watches : Lit → List Watcher) (ca toA : CAlloc) :
    List Lit → (Lit → List Watcher) × CAlloc × CAlloc
  | [] => (watches, ca, toA)
  | p :: rest =>
    let r := relocWatcherList ca toA (watches p)
    relocLits (Function.update watches p r.2.2) r.1 r.2.1 rest

/-- The reason-relocation walk of `reloc_all` over the trail: a reason is
relocated if its clause was already moved or is locked. -/
def relocReasonsLoop : Solver → CAlloc → List Lit → Solver × CAlloc
  | s, toA, [] => (s, toA)
  | s, toA, lit :: rest =>
    let v := lit.v
    let reason := (s.vardata v).reason
    if reason ≠ crefUndef ∧
        ((s.ca.getC reason).reloced ∨ s.locked reason = true) then
      let r := caReloc s.ca toA reason
      let vd := Function.update s.vardata v (VarData.mk r.2.2 (s.vardata v).level)
      let s1 := { s with ca := r.1, vardata := vd }
      relocReasonsLoop s1 r.2.1 rest
    else relocReasonsLoop s toA rest

/-- `Solver::reloc_all`: clean all watch lists, relocate every watcher,
then the qualifying reasons; finally compact the learnt and input clause
lists in place, dropping removed clauses. As in the source, the entries of
`learnts` and `clauses` themselves are not passed through `reloc` (only
the commented-out variant did). -/
def reloc_all (s : Solver) (toA : CAlloc) : Solver × CAlloc :=
  let s0 := s.clean_all
  let litsList := ((List.range s0.next_var).map
    (fun v => [Lit.mk v false, Lit.mk v true])).flatten
  let r1 := relocLits s0.watches s0.ca toA litsList
  let s1 := { s0 with watches := r1.1, ca := r1.2.1 }
  let r2 := relocReasonsLoop s1 r1.2.2 s1.trail
  let s2 := r2.1
  let s3 := { s2 with
    learnts := s2.learnts.filter (fun cr => !((s2.ca.getC cr).mark == 1)) }
  let s4 := { s3 with
    clauses := s3.clauses.filter (fun cr => !((s3.ca.getC cr).mark == 1)) }
  (s4, r2.2)

/-- `Solver::garbage_collect`: relocate everything into a fresh arena and
install it. -/
def garbage_collect (s : Solver) : Solver :=
  let r := s.reloc_all ⟨[], 0⟩
  { r.1 with ca := r.2 }

/-- `Solver::check_garbage`: run a collection when the wasted share
exceeds `garbage_frac` (the `f64` fraction is modelled as a rational; the
default 0.20 becomes 1 / 5). -/
def check_garbage (s : Solver) : Solver :=
  if (s.ca.wasted : ℚ) > (s.ca.lenWords : ℚ) * s.garbage_frac then
    s.garbage_collect
  else s

/-- `Solver::simplify`, with the fuel its `propagate` call receives. -/
def simplifyF (fuel : Nat) (s : Solver) : Res (Bool × Solver) :=
  if s.ok = false then .ok (false, { s with ok := false })
  else
    match propagateF fuel s with
    | .assertFail => .assertFail
    | .fuelOut => .fuelOut
    | .ok (confl, s1) =>
      if confl ≠ crefUndef then .ok (false, { s1 with ok := false })
      else if (s1.trail.length : Int) = s1.simp_db_assigns ∨
          s1.simp_db_props > 0 then
        .ok (true, s1)
      else
        let s2 := s1.remove_satisfied_fn true
        let s3 :=
          if s2.remove_satisfied then
            let s2a := s2.remove_satisfied_fn false
            let seen1 := s2a.released_vars.foldl
              (fun f rv => Function.update f rv true) s2a.seen
            let trail2 := s2a.trail.filter (fun lit => !(seen1 lit.v))
            let s2b := { s2a with seen := seen1, trail := trail2,
                                  qhead := trail2.length }
            let seen2 := s2b.released_vars.foldl
              (fun f rv => Function.update f rv false) s2b.seen
            let s2c := { s2b with seen := seen2 }
            { s2c with free_vars := s2c.free_vars ++ s2c.released_vars,
                       released_vars := [] }
          else s2
        let s4 := s3.check_garbage
        let s5 := s4.rebuild_order_heap
        .ok (true, { s5 with
          simp_db_assigns := (s5.trail.length : Int),
          simp_db_props := ((s5.clauses_literals + s5.learnts_literals : Nat) : Int) })

end Solver

def exC5 : Solver :=
  { baseSolver with
    ca := ⟨[⟨[⟨0, true⟩, ⟨1, false⟩], false, 0, false, 0⟩], 0⟩
    next_var := 2
    assigns := fun v => if v = 0 then ltrue else lundef
    trail := [⟨0, false⟩]
    qhead := 0
    watches := fun l =>
      if l = ⟨0, false⟩ then [⟨0, ⟨1, false⟩⟩]
      else if l = ⟨1, true⟩ then [⟨0, ⟨0, true⟩⟩]
      else []
    simp_db_assigns := 0
    simp_db_props := 10
    num_clauses := 1
    clauses_literals := 2 }

/-- The outcome of `simplify` on `exC5`, as an option. -/
def exC5run : Option (Bool × Solver) :=
  match Solver.simplifyF 5 exC5 with
  | .ok r => some r
  | _ => none

/-- A state with `ok` already false. -/
def exOff : Solver := { baseSolver with ok := false }

/-- A two-variable state for the C6 witness: the learnt clause
`[x0, x1]` is attached and satisfied by the trail literal `x0` (already
propagated, `qhead = 1`), the input clause list is empty,
`remove_satisfied` is off, and both simplification budgets are spent. -/
def exC6 : Solver :=
  { baseSolver with
    ca := ⟨[⟨[⟨0, false⟩, ⟨1, false⟩], true, 0, false, 0⟩], 0⟩
    next_var := 2
    assigns := fun v => if v = 0 then ltrue else lundef
    trail := [⟨0, false⟩]
    qhead := 1
    watches := fun l =>
      if l = ⟨0, true⟩ then [⟨0, ⟨1, false⟩⟩]
      else if l = ⟨1, true⟩ then [⟨0, ⟨0, false⟩⟩]
      else []
    learnts := [0]
    remove_satisfied := false
    simp_db_assigns := -3
    simp_db_props := 0
    num_learnts := 1
    learnts_literals := 2 }

/-- The state `propagate` hands back on `exC6` (no pending literal, so it
only books the zero-iteration counters). -/
def exC6res : Solver :=
  match Solver.propagateF 1 exC6 with
  | .ok r => r.2
  | _ => baseSolver

theorem getD_set_ne {α : Type} (l : List α) (i j : Nat) (a d : α) (h : i ≠ j) :
    (l.set i a).getD j d = l.getD j d := by
  induction l generalizing i j with
  | nil => simp [List.set]
  | cons b t ih =>
    cases i with
    | zero => cases j with
      | zero => exact absurd rfl h
      | succ j => simp [List.set, List.getD]
    | succ i => cases j with
      | zero => simp [List.set, List.getD]
      | succ j =>
        simp only [List.set, List.getD_cons_succ]
        exact ih i j (by omega)

theorem getD_set_self {α : Type} (l : List α) (i : Nat) (a d : α)
    (h : i < l.length) : (l.set i a).getD i d = a := by
  induction l generalizing i with
  | nil => simp at h
  | cons b t ih =>
    cases i with
    | zero => simp [List.set, List.getD]
    | succ i =>
      simp only [List.set, List.getD_cons_succ]
      exact ih i (by simpa using h)

theorem length_set_eq {α : Type} (l : List α) (i : Nat) (a : α) :
    (l.set i a).length = l.length := by
  simp

theorem findIdx?go_isSome_of_mem {α : Type} (p : α → Bool) (l : List α) (a : α)
    (ha : a ∈ l) (hp : p a = true) :
    ∀ i : Nat, (l.findIdx? p i).isSome = true := by
  induction l with
  | nil => cases ha
  | cons b t ih =>
    intro i
    rw [List.findIdx?_cons]
    by_cases hb : p b
    · simp [hb]
    · rcases List.mem_cons.mp ha with rfl | hmem
      · exact absurd hp hb
      · simp only [hb, if_false]
        exact ih hmem (i + 1)

theorem findIdx?_isSome_of_mem {α : Type} (p : α → Bool) (l : List α) (a : α)
    (ha : a ∈ l) (hp : p a = true) : (l.findIdx? p).isSome = true :=
  findIdx?go_isSome_of_mem p l a ha hp 0

theorem countP_eraseIdx_ge {α : Type} (p : α → Bool) (l : List α) (i : Nat) :
    l.countP p ≤ (l.eraseIdx i).countP p + 1 := by
  induction l generalizing i with
  | nil => simp
  | cons b t ih =>
    cases i with
    | zero =>
      simp only [List.eraseIdx, List.countP_cons]
      by_cases hb : p b <;> simp [hb]
    | succ i =>
      simp only [List.eraseIdx, List.countP_cons]
      by_cases hb : p b <;> simp [hb] <;> [exact ih i; exact Nat.le_trans (ih i) (by omega)]

theorem sub64_add64 (x n : Nat) (hx : x < 18446744073709551616) :
    sub64 (add64 x n) n = x := by
  unfold add64 sub64
  omega

/-! ### Claim theorems: locked, attach/detach statistics, remove_clause -/

/-- C8: `locked(ca, c)` returns true exactly when the first literal of the
clause evaluates to TRUE and the recorded reason of its variable is a
non-UNDEF handle that dereferences to this very clause, i.e. equals this
`CRef` (`ClauseRef` equality is handle equality). -/
theorem claim_C8_locked_iff (s : Solver) (cr : Nat) :
    s.locked cr = true ↔
      (s.value_lit ((s.ca.getC cr).lits.getD 0 Lit.undef) = ltrue ∧
       s.reason ((s.ca.getC cr).lits.getD 0 Lit.undef).v ≠ crefUndef ∧
       s.reason ((s.ca.getC cr).lits.getD 0 Lit.undef).v = cr) := by
  simp only [Solver.locked, Bool.and_eq_true, beq_iff_eq, bne_iff_ne, ne_eq]
  tauto

theorem findIdx?_isSome_of_countP {α : Type} (p : α → Bool) (l : List α)
    (h : 0 < l.countP p) : (l.findIdx? p).isSome = true := by
  obtain ⟨a, ha, hp⟩ := List.countP_pos_iff.mp h
  exact findIdx?_isSome_of_mem p l a ha hp

theorem attach_ca (s : Solver) (cr : Nat) : (s.attach_clause cr).ca = s.ca := by
  by_cases hl : (s.ca.getC cr).learnt <;> simp [Solver.attach_clause, hl]

theorem attach_num_clauses (s : Solver) (cr : Nat) :
    (s.attach_clause cr).num_clauses =
      (if (s.ca.getC cr).learnt then s.num_clauses else add64 s.num_clauses 1) := by
  by_cases hl : (s.ca.getC cr).learnt <;> simp [Solver.attach_clause, hl]

theorem attach_num_learnts (s : Solver) (cr : Nat) :
    (s.attach_clause cr).num_learnts =
      (if (s.ca.getC cr).learnt then add64 s.num_learnts 1 else s.num_learnts) := by
  by_cases hl : (s.ca.getC cr).learnt <;> simp [Solver.attach_clause, hl]

theorem attach_clauses_literals (s : Solver) (cr : Nat) :
    (s.attach_clause cr).clauses_literals =
      (if (s.ca.getC cr).learnt then s.clauses_literals
       else add64 s.clauses_literals (s.ca.getC cr).lits.length) := by
  by_cases hl : (s.ca.getC cr).learnt <;> simp [Solver.attach_clause, hl]

theorem attach_learnts_literals (s : Solver) (cr : Nat) :
    (s.attach_clause cr).learnts_literals =
      (if (s.ca.getC cr).learnt then add64 s.learnts_literals (s.ca.getC cr).lits.length
       else s.learnts_literals) := by
  by_cases hl : (s.ca.getC cr).learnt <;> simp [Solver.attach_clause, hl]

theorem attach_watches (s : Solver) (cr : Nat) :
    (s.attach_clause cr).watches =
      (let c := s.ca.getC cr
       let c0 := c.lits.getD 0 Lit.undef
       let c1 := c.lits.getD 1 Lit.undef
       let u1 := Function.update s.watches c0.neg
         (s.watches c0.neg ++ [Watcher.mk cr c1])
       Function.update u1 c1.neg (u1 c1.neg ++ [Watcher.mk cr c0])) := by
  by_cases hl : (s.ca.getC cr).learnt <;> simp [Solver.attach_clause, hl]

theorem countP_cref_append (l : List Watcher) (cr : Nat) (b : Lit) :
    (l ++ [Watcher.mk cr b]).countP (fun x => decide (x.cref = cr)) =
      l.countP (fun x => decide (x.cref = cr)) + 1 := by
  simp [List.countP_append, List.countP_cons]

theorem attach_watches_expanded (s : Solver) (cr : Nat) :
    (s.attach_clause cr).watches =
      Function.update
        (Function.update s.watches ((s.ca.getC cr).lits.getD 0 Lit.undef).neg
          (s.watches ((s.ca.getC cr).lits.getD 0 Lit.undef).neg ++
            [Watcher.mk cr ((s.ca.getC cr).lits.getD 1 Lit.undef)]))
        ((s.ca.getC cr).lits.getD 1 Lit.undef).neg
        ((Function.update s.watches ((s.ca.getC cr).lits.getD 0 Lit.undef).neg
            (s.watches ((s.ca.getC cr).lits.getD 0 Lit.undef).neg ++
              [Watcher.mk cr ((s.ca.getC cr).lits.getD 1 Lit.undef)]))
          ((s.ca.getC cr).lits.getD 1 Lit.undef).neg ++
          [Watcher.mk cr ((s.ca.getC cr).lits.getD 0 Lit.undef)]) :=
  attach_watches s cr

theorem attach_watch0_countP (s : Solver) (cr : Nat) :
    0 < List.countP (fun x => decide (x.cref = cr))
      ((s.attach_clause cr).watches ((s.ca.getC cr).lits.getD 0 Lit.undef).neg) := by
  rw [attach_watches_expanded]
  by_cases hk : ((s.ca.getC cr).lits.getD 1 Lit.undef).neg
      = ((s.ca.getC cr).lits.getD 0 Lit.undef).neg
  · rw [hk, Function.update_same, Function.update_same, countP_cref_append]
    omega
  · rw [Function.update_noteq (Ne.symm hk), Function.update_same, countP_cref_append]
    omega

theorem attach_watch0_countP_two (s : Solver) (cr : Nat)
    (hk : ((s.ca.getC cr).lits.getD 1 Lit.undef).neg
      = ((s.ca.getC cr).lits.getD 0 Lit.undef).neg) :
    2 ≤ List.countP (fun x => decide (x.cref = cr))
      ((s.attach_clause cr).watches ((s.ca.getC cr).lits.getD 0 Lit.undef).neg) := by
  rw [attach_watches_expanded, hk, Function.update_same, Function.update_same,
    countP_cref_append, countP_cref_append]
  omega

theorem attach_erase_watch1_countP (s : Solver) (cr : Nat) (pos : Nat) :
    0 < List.countP (fun x => decide (x.cref = cr))
      (Function.update (s.attach_clause cr).watches
        ((s.ca.getC cr).lits.getD 0 Lit.undef).neg
        (((s.attach_clause cr).watches
          ((s.ca.getC cr).lits.getD 0 Lit.undef).neg).eraseIdx pos)
        ((s.ca.getC cr).lits.getD 1 Lit.undef).neg) := by
  by_cases hk : ((s.ca.getC cr).lits.getD 1 Lit.undef).neg
      = ((s.ca.getC cr).lits.getD 0 Lit.undef).neg
  · rw [hk, Function.update_same]
    have h2 := attach_watch0_countP_two s cr hk
    have h3 := countP_eraseIdx_ge (fun x => decide (x.cref = cr))
      ((s.attach_clause cr).watches ((s.ca.getC cr).lits.getD 0 Lit.undef).neg) pos
    omega
  · rw [Function.update_noteq hk, attach_watches_expanded, Function.update_same,
      countP_cref_append]
    omega

theorem claim_C9_attach_detach_stats (s : Solver) (cr : Nat) (strict : Bool)
    (h1 : s.num_clauses < 18446744073709551616)
    (h2 : s.num_learnts < 18446744073709551616)
    (h3 : s.clauses_literals < 18446744073709551616)
    (h4 : s.learnts_literals < 18446744073709551616) :
    ∃ s2, (s.attach_clause cr).detach_clause_strict cr strict = some s2 ∧
      s2.num_clauses = s.num_clauses ∧ s2.num_learnts = s.num_learnts ∧
      s2.clauses_literals = s.clauses_literals ∧
      s2.learnts_literals = s.learnts_literals := by
  cases strict with
  | false =>
    refine ⟨_, rfl, ?_, ?_, ?_, ?_⟩ <;>
    · by_cases hl : (s.ca.getC cr).learnt <;>
      simp [Solver.detach_clause_strict, Solver.detach_clause_lazy, Solver.smudge,
            attach_ca, attach_num_clauses, attach_num_learnts, attach_clauses_literals,
            attach_learnts_literals, hl, sub64_add64, h1, h2, h3, h4]
  | true =>
    have hca := attach_ca s cr
    unfold Solver.detach_clause_strict
    rw [hca]
    simp only [if_true, Watcher.eqb]
    cases hfind1 : List.findIdx? (fun x => decide (x.cref = cr))
        ((s.attach_clause cr).watches ((s.ca.getC cr).lits.getD 0 Lit.undef).neg) with
    | none =>
      exfalso
      have hs := findIdx?_isSome_of_countP _ _ (attach_watch0_countP s cr)
      rw [hfind1] at hs
      simp at hs
    | some pos =>
      dsimp only
      cases hfind2 : List.findIdx? (fun x => decide (x.cref = cr))
          (Function.update (s.attach_clause cr).watches
            ((s.ca.getC cr).lits.getD 0 Lit.undef).neg
            (((s.attach_clause cr).watches
              ((s.ca.getC cr).lits.getD 0 Lit.undef).neg).eraseIdx pos)
            ((s.ca.getC cr).lits.getD 1 Lit.undef).neg) with
      | none =>
        exfalso
        have hs := findIdx?_isSome_of_countP _ _ (attach_erase_watch1_countP s cr pos)
        rw [hfind2] at hs
        simp at hs
      | some pos2 =>
        dsimp only
        refine ⟨_, rfl, ?_, ?_, ?_, ?_⟩ <;>
        · by_cases hl : (s.ca.getC cr).learnt <;>
          simp [hl, attach_num_clauses, attach_num_learnts, attach_clauses_literals,
            attach_learnts_literals, sub64_add64, h1, h2, h3, h4]

theorem locked_eq_true_iff (s : Solver) (cr : Nat) :
    s.locked cr = true ↔
      (s.value_lit ((s.ca.getC cr).lits.getD 0 Lit.undef) = ltrue ∧
       s.reason ((s.ca.getC cr).lits.getD 0 Lit.undef).v ≠ crefUndef ∧
       s.reason ((s.ca.getC cr).lits.getD 0 Lit.undef).v = cr) := by
  simp only [Solver.locked, Bool.and_eq_true, beq_iff_eq, bne_iff_ne, ne_eq]
  tauto

theorem detach_lazy_vardata (s : Solver) (cr : Nat) :
    (s.detach_clause_lazy cr).vardata = s.vardata := by
  by_cases hl : (s.ca.getC cr).learnt <;>
    simp [Solver.detach_clause_lazy, Solver.smudge, hl]

theorem detach_lazy_assigns (s : Solver) (cr : Nat) :
    (s.detach_clause_lazy cr).assigns = s.assigns := by
  by_cases hl : (s.ca.getC cr).learnt <;>
    simp [Solver.detach_clause_lazy, Solver.smudge, hl]

theorem detach_lazy_ca (s : Solver) (cr : Nat) :
    (s.detach_clause_lazy cr).ca = s.ca := by
  by_cases hl : (s.ca.getC cr).learnt <;>
    simp [Solver.detach_clause_lazy, Solver.smudge, hl]

theorem detach_locked_char (s : Solver) (cr : Nat) :
    ((s.detach_clause cr).locked cr = true ↔
      (s.value_lit ((s.ca.getC cr).lits.getD 0 Lit.undef) = ltrue ∧
       s.reason ((s.ca.getC cr).lits.getD 0 Lit.undef).v ≠ crefUndef ∧
       s.reason ((s.ca.getC cr).lits.getD 0 Lit.undef).v = cr)) := by
  rw [Solver.detach_clause, locked_eq_true_iff]
  simp [Solver.value_lit, Solver.reason, detach_lazy_assigns, detach_lazy_vardata,
    detach_lazy_ca]

theorem remove_clause_vardata (s : Solver) (cr : Nat) :
    (s.remove_clause cr).vardata =
      (if (s.detach_clause cr).locked cr = true then
        Function.update s.vardata ((s.ca.getC cr).lits.getD 0 Lit.undef).v
          (VarData.mk crefUndef
            ((s.vardata ((s.ca.getC cr).lits.getD 0 Lit.undef).v).level))
      else s.vardata) := by
  by_cases hlock : (s.detach_clause_lazy cr).locked cr
  · simp [Solver.remove_clause, Solver.detach_clause, hlock, detach_lazy_vardata,
      detach_lazy_ca, CAlloc.setC, CAlloc.free]
  · simp [Solver.remove_clause, Solver.detach_clause, hlock, detach_lazy_vardata]

theorem remove_clause_ca_clauses (s : Solver) (cr : Nat) :
    (s.remove_clause cr).ca.clauses =
      s.ca.clauses.set cr { s.ca.getC cr with mark := 1 } := by
  by_cases hlock : (s.detach_clause_lazy cr).locked cr <;>
    simp [Solver.remove_clause, Solver.detach_clause, hlock, detach_lazy_ca,
      CAlloc.setC, CAlloc.free, detach_lazy_vardata]

/-- C10: `remove_clause` detaches and, when the clause is locked, resets the
reason of the variable of its first literal to UNDEF before marking the
clause removed; consequently, in a state where reasons point only at
unmarked clauses and where only the locked first-literal variable can have
this clause as its reason, after `remove_clause` no reason field points at a
clause whose mark is 1. -/
theorem claim_C10_remove_clause_reason_invariant (s : Solver) (cr : Nat)
    (hcrU : cr ≠ crefUndef)
    (hmarks : ∀ v : Nat, s.reason v ≠ crefUndef → (s.ca.getC (s.reason v)).mark ≠ 1)
    (hpoint : ∀ v : Nat, s.reason v = cr →
      v = ((s.ca.getC cr).lits.getD 0 Lit.undef).v)
    (htrue : s.reason ((s.ca.getC cr).lits.getD 0 Lit.undef).v = cr →
      s.value_lit ((s.ca.getC cr).lits.getD 0 Lit.undef) = ltrue) :
    ((s.detach_clause cr).locked cr = true →
      (s.remove_clause cr).reason ((s.ca.getC cr).lits.getD 0 Lit.undef).v
        = crefUndef) ∧
    (∀ v : Nat, (s.remove_clause cr).reason v ≠ crefUndef →
      ((s.remove_clause cr).ca.getC ((s.remove_clause cr).reason v)).mark ≠ 1) := by
  constructor
  · intro hlock
    unfold Solver.reason
    rw [remove_clause_vardata, if_pos hlock, Function.update_same]
  · intro v hv
    have hreasonv : (s.remove_clause cr).reason v = s.reason v := by
      unfold Solver.reason at hv ⊢
      rw [remove_clause_vardata] at hv ⊢
      by_cases hlock : (s.detach_clause cr).locked cr
      · rw [if_pos hlock] at hv ⊢
        by_cases hvv : v = ((s.ca.getC cr).lits.getD 0 Lit.undef).v
        · subst hvv
          rw [Function.update_same] at hv
          exact absurd rfl hv
        · rw [Function.update_noteq hvv]
      · rw [if_neg hlock] at hv ⊢
    rw [hreasonv] at hv ⊢
    have hrc : s.reason v ≠ cr := by
      intro hrc
      have hvv := hpoint v hrc
      subst hvv
      by_cases hlock : (s.detach_clause cr).locked cr
      · -- the reason of v was already shown equal to the reset UNDEF value
        unfold Solver.reason at hreasonv
        rw [remove_clause_vardata, if_pos hlock, Function.update_same] at hreasonv
        exact hv (by simpa using hreasonv.symm)
      · -- but the clause is locked, contradiction
        have : (s.detach_clause cr).locked cr = true :=
          (detach_locked_char s cr).mpr ⟨htrue hrc, by rw [hrc]; exact hcrU, hrc⟩
        exact absurd this hlock
    have hgc : (s.remove_clause cr).ca.getC (s.reason v) = s.ca.getC (s.reason v) := by
      unfold CAlloc.getC
      rw [remove_clause_ca_clauses]
      exact getD_set_ne _ _ _ _ _ (fun h => hrc h.symm)
    rw [hgc]
    exact hmarks v hv

/-! ### Concrete states for witnesses and counterexamples -/

/-- Witness for the C9 theorem: on the concrete state `exTwoLit`, attaching
clause 0 and then strictly detaching it restores all four statistics
counters. -/
theorem claim_C9_witness :
    ∃ s2, (exTwoLit.attach_clause 0).detach_clause_strict 0 true = some s2 ∧
      s2.num_clauses = exTwoLit.num_clauses ∧
      s2.num_learnts = exTwoLit.num_learnts ∧
      s2.clauses_literals = exTwoLit.clauses_literals ∧
      s2.learnts_literals = exTwoLit.learnts_literals :=
  claim_C9_attach_detach_stats exTwoLit 0 true (by decide) (by decide)
    (by decide) (by decide)

/-- Witness for the C10 theorem: on the concrete state `exTwoLit` (no
variable has a recorded reason) removing clause 0 leaves no reason field
pointing at a marked clause. -/
theorem claim_C10_witness :
    ((exTwoLit.detach_clause 0).locked 0 = true →
      (exTwoLit.remove_clause 0).reason
        ((exTwoLit.ca.getC 0).lits.getD 0 Lit.undef).v = crefUndef) ∧
    (∀ v : Nat, (exTwoLit.remove_clause 0).reason v ≠ crefUndef →
      ((exTwoLit.remove_clause 0).ca.getC
        ((exTwoLit.remove_clause 0).reason v)).mark ≠ 1) :=
  claim_C10_remove_clause_reason_invariant exTwoLit 0 (by decide)
    (fun v h => by
      simp [exTwoLit, baseSolver, Solver.reason] at h)
    (fun v h => by
      simp [exTwoLit, baseSolver, Solver.reason, crefUndef] at h)
    (fun h => by
      simp [exTwoLit, baseSolver, Solver.reason, crefUndef] at h)


/-! ### The propagator -/

/-- C1, evaluation at the failing input: on `exC1` the clause has the
non-false literal `x2` at position 2, and the code does swap it into
position 1 and append a watcher for the clause to the list of `¬x2`; but,
lacking the `continue` of MiniSat, it then falls through to the unit
handling and also enqueues `c[0] = x1` on the trail with this clause as
reason — the claim says no unit enqueue happens on such a visit. -/
theorem claim_C1_code_bug_eval :
    exC1run.map (fun r => (r.1, r.2.trail, r.2.watches ⟨2, true⟩,
        (r.2.vardata 1).reason, (r.2.ca.getC 0).lits)) =
      some (crefUndef, [⟨0, false⟩, ⟨1, false⟩], [⟨0, ⟨1, false⟩⟩], 0,
        [⟨1, false⟩, ⟨2, false⟩, ⟨0, true⟩]) := by
  decide

/-- C2, evaluation at the failing input: on `exC2` the single watcher of
the list of `x0` is kept by the compaction (the write cursor `j` ends at 1,
as does the read cursor `i`), so the claim requires the final list to have
length `j = 1` and still hold that watcher; but `ws.resize(i - j, dummy)`
sets the length to `i - j = 0`, erasing the kept watcher. -/
theorem claim_C2_code_bug_eval :
    exC2run.map (fun r => (r.1, r.2.watches ⟨0, false⟩, r.2.qhead)) =
      some (crefUndef, [], 2) := by
  decide

theorem getD_mem {α : Type} (l : List α) (i : Nat) (d : α) (h : i < l.length) :
    l.getD i d ∈ l := by
  induction l generalizing i with
  | nil => simp at h
  | cons a t ih =>
    cases i with
    | zero => simp [List.getD]
    | succ i =>
      simp only [List.getD_cons_succ]
      exact List.mem_cons_of_mem _ (ih i (by simpa using h))

theorem xorSign_eq_undef_iff (x : LBool) (b : Bool) :
    x.xorSign b = lundef ↔ x = lundef := by
  cases x <;> cases b <;> simp [LBool.xorSign]

theorem value_lit_undef_iff (s : Solver) (l : Lit) :
    s.value_lit l = lundef ↔ s.assigns l.v = lundef :=
  xorSign_eq_undef_iff _ _

theorem ck_ne_negp (s : Solver) (p ck : Lit) (hp : s.value_lit p = ltrue)
    (hck : s.value_lit ck ≠ lfalse) : ck.neg ≠ p := by
  intro h
  have hck2 : ck = p.neg := by
    rw [← h]
    cases ck
    simp [Lit.neg]
  subst hck2
  cases hv : s.assigns p.v <;> cases hs : p.s <;>
    simp_all [Solver.value_lit, Lit.neg, LBool.xorSign]

theorem propKLoop_ok_proj : ∀ (fuel : Nat) (s : Solver) (p : Lit) (cr : Nat)
    (w : Watcher) (k sz : Nat) (s2 : Solver),
    Solver.propKLoop fuel s p cr w k sz = .ok s2 →
    s2.qhead = s.qhead ∧ s2.trail = s.trail ∧ s2.assigns = s.assigns := by
  intro fuel
  induction fuel with
  | zero =>
    intro s p cr w k sz s2 h
    simp [Solver.propKLoop] at h
  | succ fuel ih =>
    intro s p cr w k sz s2 h
    simp only [Solver.propKLoop] at h
    split_ifs at h with h1 h2 h3
    · obtain ⟨e1, e2, e3⟩ := ih _ _ _ _ _ _ _ h
      exact ⟨e1, e2, e3⟩
    · exact ih _ _ _ _ _ _ _ h
    · cases h
      exact ⟨rfl, rfl, rfl⟩

theorem propKLoop_ne_assert : ∀ (fuel : Nat) (s : Solver) (p : Lit) (cr : Nat)
    (w : Watcher) (k sz : Nat), s.value_lit p = ltrue →
    Solver.propKLoop fuel s p cr w k sz ≠ .assertFail := by
  intro fuel
  induction fuel with
  | zero =>
    intro s p cr w k sz hp h
    simp [Solver.propKLoop] at h
  | succ fuel ih =>
    intro s p cr w k sz hp h
    simp only [Solver.propKLoop] at h
    split_ifs at h with h1 h2 h3
    · exact ck_ne_negp s p _ hp h2 h3
    · refine ih _ _ _ _ _ _ ?_ h
      exact hp
    · exact ih _ _ _ _ _ _ hp h

theorem enqueue_value_lit_of_ne (s : Solver) (first : Lit) (cr : Nat) (l : Lit)
    (h : l.v ≠ first.v) :
    (s.unchecked_enqueue first cr).value_lit l = s.value_lit l := by
  simp [Solver.unchecked_enqueue, Solver.value_lit, Function.update_noteq h]

theorem enqueue_value_lit_self (s : Solver) (first : Lit) (cr : Nat) :
    (s.unchecked_enqueue first cr).value_lit first = ltrue := by
  cases hs : first.s <;>
    simp [Solver.unchecked_enqueue, Solver.value_lit, Function.update_same,
      LBool.ofBool, LBool.xorSign, hs]

theorem enqueue_trailInv (s : Solver) (first : Lit) (cr : Nat)
    (hfirst : s.value_lit first = lundef) (hinv : TrailInv s) :
    TrailInv (s.unchecked_enqueue first cr) := by
  intro l hl
  have hl2 : l ∈ s.trail ∨ l = first := by
    simpa [Solver.unchecked_enqueue] using hl
  rcases hl2 with hl2 | rfl
  · have hne : l.v ≠ first.v := by
      intro he
      have h1 := hinv l hl2
      have h2 : s.value_lit l = lundef := by
        rw [value_lit_undef_iff, he]
        exact (value_lit_undef_iff s first).mp hfirst
      rw [h1] at h2
      cases h2
    rw [enqueue_value_lit_of_ne _ _ _ _ hne]
    exact hinv l hl2
  · exact enqueue_value_lit_self _ _ _

theorem enqueue_value_p (s : Solver) (first : Lit) (cr : Nat) (p : Lit)
    (hfirst : s.value_lit first = lundef) (hp : s.value_lit p = ltrue) :
    (s.unchecked_enqueue first cr).value_lit p = ltrue := by
  have hne : p.v ≠ first.v := by
    intro he
    have := (value_lit_undef_iff s first).mp hfirst
    rw [← he] at this
    rw [Solver.value_lit, this] at hp
    cases hs : p.s <;> rw [hs] at hp <;> simp [LBool.xorSign] at hp
  rw [enqueue_value_lit_of_ne _ _ _ _ hne]
  exact hp

theorem value_lit_congr (s1 s2 : Solver) (l : Lit)
    (h : s2.assigns = s1.assigns) : s2.value_lit l = s1.value_lit l := by
  unfold Solver.value_lit
  rw [h]

theorem lundef_of_not_true_false (x : LBool) (h1 : x ≠ ltrue)
    (h2 : x ≠ lfalse) : x = lundef := by
  cases x <;> simp_all

theorem not_true_of_conds (s1 : Solver) (first blocker : Lit)
    (h2 : ¬ s1.value_lit blocker = ltrue)
    (h45 : ¬(first ≠ blocker ∧ s1.value_lit first = ltrue)) :
    s1.value_lit first ≠ ltrue := by
  intro hT
  by_cases hfb : first = blocker
  · rw [hfb] at hT
    exact h2 hT
  · exact h45 ⟨hfb, hT⟩

theorem undef_first (s2x s1 : Solver) (first blocker : Lit)
    (ha : s2x.assigns = s1.assigns)
    (h2 : ¬ s1.value_lit blocker = ltrue)
    (h45 : ¬(first ≠ blocker ∧ s1.value_lit first = ltrue))
    (h6 : ¬ s2x.value_lit first = lfalse) :
    s2x.value_lit first = lundef := by
  have hco := value_lit_congr s1 s2x first ha
  apply lundef_of_not_true_false
  · rw [hco]
    exact not_true_of_conds s1 first blocker h2 h45
  · exact h6

theorem propInner_ne_assert : ∀ (fuel : Nat) (s : Solver) (p : Lit)
    (ws : List Watcher) (i j endIdx confl : Nat),
    s.value_lit p = ltrue →
    Solver.propInner fuel s p ws i j endIdx confl ≠ .assertFail := by
  intro fuel
  induction fuel with
  | zero =>
    intro s p ws i j endIdx confl hp h
    simp [Solver.propInner] at h
  | succ fuel ih =>
    intro s p ws i j endIdx confl hp h
    simp only [Solver.propInner] at h
    split_ifs at h with h1 h2 h3 h4 h5
    · exact ih _ _ _ _ _ _ _ hp h
    · refine ih _ _ _ _ _ _ _ ?_ h
      exact hp
    · split at h
      · rename_i heq
        refine propKLoop_ne_assert _ _ _ _ _ _ _ ?_ heq
        exact hp
      · exact Res.noConfusion h
      · rename_i s2x heq
        split_ifs at h with h6
        · refine ih _ _ _ _ _ _ _ ?_ h
          have ha := (propKLoop_ok_proj _ _ _ _ _ _ _ _ heq).2.2
          have hv : s2x.value_lit p = ltrue := by
            rw [value_lit_congr _ _ p ha]
            exact hp
          exact hv
        · refine ih _ _ _ _ _ _ _ ?_ h
          have ha := (propKLoop_ok_proj _ _ _ _ _ _ _ _ heq).2.2
          refine enqueue_value_p _ _ _ _ ?_ ?_
          · exact undef_first _ _ _ _ ha h2 h4 h6
          · rw [value_lit_congr _ _ p ha]
            exact hp
    · refine ih _ _ _ _ _ _ _ ?_ h
      exact hp
    · split at h
      · rename_i heq
        refine propKLoop_ne_assert _ _ _ _ _ _ _ ?_ heq
        exact hp
      · exact Res.noConfusion h
      · rename_i s2x heq
        split_ifs at h with h6
        · refine ih _ _ _ _ _ _ _ ?_ h
          have ha := (propKLoop_ok_proj _ _ _ _ _ _ _ _ heq).2.2
          have hv : s2x.value_lit p = ltrue := by
            rw [value_lit_congr _ _ p ha]
            exact hp
          exact hv
        · refine ih _ _ _ _ _ _ _ ?_ h
          have ha := (propKLoop_ok_proj _ _ _ _ _ _ _ _ heq).2.2
          refine enqueue_value_p _ _ _ _ ?_ ?_
          · exact undef_first _ _ _ _ ha h2 h5 h6
          · rw [value_lit_congr _ _ p ha]
            exact hp

theorem trailInv_of_eq (s s2 : Solver) (ht : s2.trail = s.trail)
    (ha : s2.assigns = s.assigns) (h : TrailInv s) : TrailInv s2 := by
  intro l hl
  rw [ht] at hl
  have hx := h l hl
  unfold Solver.value_lit
  rw [ha]
  exact hx

theorem propInner_ok_spec : ∀ (fuel : Nat) (s : Solver) (p : Lit)
    (ws : List Watcher) (i j endIdx confl : Nat) (s2 : Solver)
    (ws2 : List Watcher) (i2 j2 c2 : Nat),
    Solver.propInner fuel s p ws i j endIdx confl = .ok (s2, ws2, i2, j2, c2) →
    (s.qhead ≤ s.trail.length → s2.qhead ≤ s2.trail.length) ∧
    (s.value_lit p = ltrue → TrailInv s → TrailInv s2) := by
  intro fuel
  induction fuel with
  | zero =>
    intro s p ws i j endIdx confl s2 ws2 i2 j2 c2 h
    simp [Solver.propInner] at h
  | succ fuel ih =>
    intro s p ws i j endIdx confl s2 ws2 i2 j2 c2 h
    simp only [Solver.propInner] at h
    split_ifs at h with h1 h2 h3 h4 h5
    · have hih := ih _ _ _ _ _ _ _ _ _ _ _ _ h
      exact hih
    · have hih := ih _ _ _ _ _ _ _ _ _ _ _ _ h
      exact hih
    · split at h
      · exact Res.noConfusion h
      · exact Res.noConfusion h
      · rename_i s2x heq
        obtain ⟨e1, e2, e3⟩ := propKLoop_ok_proj _ _ _ _ _ _ _ _ heq
        split_ifs at h with h6
        · have hih := ih _ _ _ _ _ _ _ _ _ _ _ _ h
          constructor
          · intro _
            refine hih.1 ?_
            exact Nat.le_refl _
          · intro hp hinv
            refine hih.2 ?_ ?_
            · have hv : s2x.value_lit p = ltrue := by
                rw [value_lit_congr _ _ p e3]
                exact hp
              exact hv
            · exact trailInv_of_eq s _ e2 e3 hinv
        · have hih := ih _ _ _ _ _ _ _ _ _ _ _ _ h
          constructor
          · intro hq
            refine hih.1 ?_
            have hgoal : s2x.qhead ≤ s2x.trail.length + 1 := by
              rw [e1, e2]
              exact Nat.le_succ_of_le hq
            simpa [Solver.unchecked_enqueue] using hgoal
          · intro hp hinv
            have hfu := undef_first _ _ _ _ e3 h2 h4 h6
            refine hih.2 ?_ ?_
            · refine enqueue_value_p _ _ _ _ hfu ?_
              rw [value_lit_congr _ _ p e3]
              exact hp
            · refine enqueue_trailInv _ _ _ hfu ?_
              exact trailInv_of_eq s _ e2 e3 hinv
    · have hih := ih _ _ _ _ _ _ _ _ _ _ _ _ h
      exact hih
    · split at h
      · exact Res.noConfusion h
      · exact Res.noConfusion h
      · rename_i s2x heq
        obtain ⟨e1, e2, e3⟩ := propKLoop_ok_proj _ _ _ _ _ _ _ _ heq
        split_ifs at h with h6
        · have hih := ih _ _ _ _ _ _ _ _ _ _ _ _ h
          constructor
          · intro _
            refine hih.1 ?_
            exact Nat.le_refl _
          · intro hp hinv
            refine hih.2 ?_ ?_
            · have hv : s2x.value_lit p = ltrue := by
                rw [value_lit_congr _ _ p e3]
                exact hp
              exact hv
            · exact trailInv_of_eq s _ e2 e3 hinv
        · have hih := ih _ _ _ _ _ _ _ _ _ _ _ _ h
          constructor
          · intro hq
            refine hih.1 ?_
            have hgoal : s2x.qhead ≤ s2x.trail.length + 1 := by
              rw [e1, e2]
              exact Nat.le_succ_of_le hq
            simpa [Solver.unchecked_enqueue] using hgoal
          · intro hp hinv
            have hfu := undef_first _ _ _ _ e3 h2 h5 h6
            refine hih.2 ?_ ?_
            · refine enqueue_value_p _ _ _ _ hfu ?_
              rw [value_lit_congr _ _ p e3]
              exact hp
            · refine enqueue_trailInv _ _ _ hfu ?_
              exact trailInv_of_eq s _ e2 e3 hinv
    · cases h
      exact ⟨fun hq => hq, fun _ hinv => hinv⟩

theorem lookup_clean_proj (s : Solver) (p : Lit) :
    (s.lookup_clean p).2.qhead = s.qhead ∧ (s.lookup_clean p).2.trail = s.trail ∧
    (s.lookup_clean p).2.assigns = s.assigns := by
  unfold Solver.lookup_clean
  split <;> exact ⟨rfl, rfl, rfl⟩

theorem propOuter_ok_qhead : ∀ (fuel : Nat) (s : Solver) (confl n c2 n2 : Nat)
    (s2 : Solver), Solver.propOuter fuel s confl n = .ok (c2, s2, n2) →
    s.qhead ≤ s.trail.length → s2.qhead = s2.trail.length := by
  intro fuel
  induction fuel with
  | zero =>
    intro s confl n c2 n2 s2 h hq
    simp [Solver.propOuter] at h
  | succ fuel ih =>
    intro s confl n c2 n2 s2 h hq
    simp only [Solver.propOuter] at h
    split_ifs at h with h1
    · split at h
      · exact Res.noConfusion h
      · exact Res.noConfusion h
      · rename_i s2x ws2 i2 j2 c2x heq
        obtain ⟨l1, l2, l3⟩ := lookup_clean_proj
          { s with qhead := s.qhead + 1 } (s.trail.getD s.qhead Lit.undef)
        have hin := (propInner_ok_spec _ _ _ _ _ _ _ _ _ _ _ _ _ heq).1
        refine ih _ _ _ _ _ _ h ?_
        refine hin ?_
        rw [l1, l2]
        exact h1
    · cases h
      omega

theorem propOuter_ne_assert : ∀ (fuel : Nat) (s : Solver) (confl n : Nat),
    TrailInv s → Solver.propOuter fuel s confl n ≠ .assertFail := by
  intro fuel
  induction fuel with
  | zero =>
    intro s confl n hinv h
    simp [Solver.propOuter] at h
  | succ fuel ih =>
    intro s confl n hinv h
    simp only [Solver.propOuter] at h
    split_ifs at h with h1
    · obtain ⟨l1, l2, l3⟩ := lookup_clean_proj
        { s with qhead := s.qhead + 1 } (s.trail.getD s.qhead Lit.undef)
      have hp1 : Solver.value_lit
          ({ s with qhead := s.qhead + 1 }.lookup_clean
            (s.trail.getD s.qhead Lit.undef)).2
          (s.trail.getD s.qhead Lit.undef) = ltrue := by
        have hmem := getD_mem s.trail s.qhead Lit.undef h1
        have hval := hinv _ hmem
        unfold Solver.value_lit
        rw [l3]
        exact hval
      have hinv1 : TrailInv ({ s with qhead := s.qhead + 1 }.lookup_clean
          (s.trail.getD s.qhead Lit.undef)).2 := by
        refine trailInv_of_eq s _ l2 l3 ?_
        exact hinv
      split at h
      · rename_i heq
        exact propInner_ne_assert _ _ _ _ _ _ _ _ hp1 heq
      · exact Res.noConfusion h
      · rename_i s2x ws2 i2 j2 c2x heq
        have hnext := (propInner_ok_spec _ _ _ _ _ _ _ _ _ _ _ _ _ heq).2
          hp1 hinv1
        refine ih _ _ _ ?_ h
        exact hnext

/-- C3: whenever `propagate` returns, with a conflict reference or with
`CRef::UNDEF`, the propagation head `qhead` equals the trail length.
The hypothesis `qhead ≤ trail.len` holds in every state `propagate` runs
from, since `qhead` only ever advances up to the trail length. -/
theorem claim_C3_qhead_eq_trail (fuel : Nat) (s : Solver) (c : Nat)
    (s2 : Solver) (h : Solver.propagateF fuel s = .ok (c, s2))
    (hq : s.qhead ≤ s.trail.length) : s2.qhead = s2.trail.length := by
  unfold Solver.propagateF at h
  cases hout : Solver.propOuter fuel s crefUndef 0 with
  | ok r =>
    obtain ⟨c1, s1, n1⟩ := r
    rw [hout] at h
    injection h with hpair
    injection hpair with hc hs
    subst hs
    exact propOuter_ok_qhead fuel s crefUndef 0 c1 n1 s1 hout hq
  | assertFail =>
    rw [hout] at h
    exact Res.noConfusion h
  | fuelOut =>
    rw [hout] at h
    exact Res.noConfusion h

/-- C7: from a state whose trail literals are all true (an invariant of
every reachable state), `propagate` never hits the assertion
`assert_ne!(!c[1], p)`: every watcher pushed during the iteration of the
list of `p` goes to the list of a different literal, because the new
`c[1]` is not assigned false while `¬p` is. -/
theorem claim_C7_no_assert_failure (fuel : Nat) (s : Solver)
    (hinv : TrailInv s) : Solver.propagateF fuel s ≠ .assertFail := by
  unfold Solver.propagateF
  cases hout : Solver.propOuter fuel s crefUndef 0 with
  | ok r =>
    obtain ⟨c1, s1, n1⟩ := r
    simp
  | assertFail =>
    exact absurd hout (propOuter_ne_assert fuel s crefUndef 0 hinv)
  | fuelOut =>
    simp

/-- Witness for the C3 theorem: on the concrete state `exC1`, running
`propagate` (which enqueues one literal and processes two) ends with
`qhead` equal to the trail length. -/
theorem claim_C3_witness : exC3res.qhead = exC3res.trail.length :=
  claim_C3_qhead_eq_trail 5 exC1 crefUndef exC3res (by rfl) (by decide)

/-- Witness for the C7 theorem: from the concrete state `exC1`, whose one
trail literal is true, `propagate` completes without hitting the
assertion. -/
theorem claim_C7_witness : Solver.propagateF 5 exC1 ≠ Res.assertFail :=
  claim_C7_no_assert_failure 5 exC1 (by
    intro l hl
    have hl2 : l = ⟨0, false⟩ := by
      simpa [exC1, baseSolver] using hl
    subst hl2
    decide)

theorem idx_inj (a b : Lit) (h : a.idx = b.idx) : a = b := by
  cases a with
  | mk av as =>
    cases b with
    | mk bv bs =>
      cases as <;> cases bs <;> simp [Lit.idx] at h <;> simp <;> omega

theorem idx_neg_pos (a : Lit) (ha : a.s = false) : a.neg.idx = a.idx + 1 := by
  cases a with
  | mk av as =>
    subst ha
    simp [Lit.neg, Lit.idx]

theorem neg_ne_self (a : Lit) : a.neg ≠ a := by
  cases a with
  | mk av as => cases as <;> simp [Lit.neg]

theorem neg_neg_lit (a : Lit) : a.neg.neg = a := by
  cases a with
  | mk av as => simp [Lit.neg]

theorem value_lit_neg_of_false (s : Solver) (a : Lit)
    (h : s.value_lit a = lfalse) : s.value_lit a.neg = ltrue := by
  cases hv : s.assigns a.v <;> cases hs : a.s <;>
    simp_all [Solver.value_lit, Lit.neg, LBool.xorSign]

theorem scan_error_of_mem_true (s : Solver) :
    ∀ (L : List Lit) (last : Lit) (kept : List Lit),
    (∃ l ∈ L, s.value_lit l = ltrue) →
    ∃ k, s.add_clause_scan L last kept = .error k := by
  intro L
  induction L with
  | nil =>
    intro last kept h
    obtain ⟨l, hl, _⟩ := h
    cases hl
  | cons c rest ih =>
    intro last kept h
    rw [Solver.add_clause_scan]
    split_ifs with h1 h2
    · exact ⟨kept, rfl⟩
    · obtain ⟨l, hl, hv⟩ := h
      rcases List.mem_cons.mp hl with rfl | hl2
      · exact absurd (Or.inl hv) h1
      · exact ih _ _ ⟨l, hl2, hv⟩
    · obtain ⟨l, hl, hv⟩ := h
      rcases List.mem_cons.mp hl with rfl | hl2
      · exact absurd (Or.inl hv) h1
      · exact ih _ _ ⟨l, hl2, hv⟩

theorem scan_error_taut_phase2 (s : Solver) (a : Lit) (ha : a.s = false) :
    ∀ (L : List Lit) (kept : List Lit),
    List.Pairwise (fun x y => x.idx ≤ y.idx) L → a.neg ∈ L →
    (∀ l ∈ L, s.value_lit l ≠ ltrue) → (∀ l ∈ L, a.idx ≤ l.idx) →
    ∃ k, s.add_clause_scan L a kept = .error k := by
  intro L
  induction L with
  | nil =>
    intro kept _ hmem _ _
    cases hmem
  | cons c rest ih =>
    intro kept hsort hmem hnoT hbound
    rw [Solver.add_clause_scan]
    split_ifs with h1 h2
    · exact ⟨kept, rfl⟩
    · -- c was kept, but c must equal a or a.neg; a.neg hits h1, so c = a,
      -- and then c = last contradicts the kept condition
      exfalso
      rcases List.mem_cons.mp hmem with rfl | hmem2
      · exact h1 (Or.inr rfl)
      · have hc_le : c.idx ≤ a.neg.idx :=
          (List.pairwise_cons.mp hsort).1 _ hmem2
        rw [idx_neg_pos a ha] at hc_le
        have ha_le : a.idx ≤ c.idx := hbound c (List.mem_cons_self _ _)
        have hceq : c = a ∨ c = a.neg := by
          rcases Nat.lt_or_ge c.idx (a.idx + 1) with hlt | hge
          · exact Or.inl (idx_inj c a (by omega))
          · exact Or.inr (idx_inj c a.neg (by rw [idx_neg_pos a ha]; omega))
        rcases hceq with rfl | rfl
        · exact h2.2 rfl
        · exact h1 (Or.inr rfl)
    · -- c skipped; c must be a (or the scan already errored on a.neg)
      rcases List.mem_cons.mp hmem with rfl | hmem2
      · exact absurd (Or.inr rfl) h1
      · have hc_le : c.idx ≤ a.neg.idx :=
          (List.pairwise_cons.mp hsort).1 _ hmem2
        rw [idx_neg_pos a ha] at hc_le
        have ha_le : a.idx ≤ c.idx := hbound c (List.mem_cons_self _ _)
        have hceq : c = a ∨ c = a.neg := by
          rcases Nat.lt_or_ge c.idx (a.idx + 1) with hlt | hge
          · exact Or.inl (idx_inj c a (by omega))
          · exact Or.inr (idx_inj c a.neg (by rw [idx_neg_pos a ha]; omega))
        rcases hceq with rfl | rfl
        · refine ih kept (List.pairwise_cons.mp hsort).2 hmem2 ?_ ?_
          · intro l hl
            exact hnoT l (List.mem_cons_of_mem _ hl)
          · intro l hl
            exact (List.pairwise_cons.mp hsort).1 _ hl
        · exact absurd (Or.inr rfl) h1

theorem scan_error_taut (s : Solver) (a : Lit) (ha : a.s = false) :
    ∀ (L : List Lit) (last : Lit) (kept : List Lit),
    List.Pairwise (fun x y => x.idx ≤ y.idx) L → a ∈ L → a.neg ∈ L →
    (∀ l ∈ L, s.value_lit l ≠ ltrue) →
    ∃ k, s.add_clause_scan L last kept = .error k := by
  intro L
  induction L with
  | nil =>
    intro last kept _ hmem _ _
    cases hmem
  | cons c rest ih =>
    intro last kept hsort hmema hmemn hnoT
    have hrest : ∀ l ∈ rest, s.value_lit l ≠ ltrue := fun l hl =>
      hnoT l (List.mem_cons_of_mem _ hl)
    rw [Solver.add_clause_scan]
    split_ifs with h1 h2
    · exact ⟨kept, rfl⟩
    · -- kept branch
      by_cases hca : c = a
      · subst hca
        have hmn : c.neg ∈ rest := by
          rcases List.mem_cons.mp hmemn with he | hm
          · exact absurd he (neg_ne_self c)
          · exact hm
        refine scan_error_taut_phase2 s c ha rest _
          (List.pairwise_cons.mp hsort).2 hmn hrest ?_
        intro l hl
        exact (List.pairwise_cons.mp hsort).1 _ hl
      · have hma : a ∈ rest := by
          rcases List.mem_cons.mp hmema with he | hm
          · exact absurd he.symm hca
          · exact hm
        have hmn : a.neg ∈ rest := by
          rcases List.mem_cons.mp hmemn with he | hm
          · exfalso
            have hle : c.idx ≤ a.idx := (List.pairwise_cons.mp hsort).1 _ hma
            rw [← he, idx_neg_pos a ha] at hle
            omega
          · exact hm
        exact ih _ _ (List.pairwise_cons.mp hsort).2 hma hmn hrest
    · -- skip branch
      by_cases hca : c = a
      · subst hca
        have hmn : c.neg ∈ rest := by
          rcases List.mem_cons.mp hmemn with he | hm
          · exact absurd he (neg_ne_self c)
          · exact hm
        -- c is not false (else c.neg would be true), so c = last
        have hcv : s.value_lit c ≠ lfalse := by
          intro hf
          exact hrest c.neg hmn (value_lit_neg_of_false s c hf)
        have hclast : c = last := by
          by_contra hne
          exact h2 ⟨hcv, hne⟩
        subst hclast
        refine scan_error_taut_phase2 s c ha rest _
          (List.pairwise_cons.mp hsort).2 hmn hrest ?_
        intro l hl
        exact (List.pairwise_cons.mp hsort).1 _ hl
      · have hma : a ∈ rest := by
          rcases List.mem_cons.mp hmema with he | hm
          · exact absurd he.symm hca
          · exact hm
        have hmn : a.neg ∈ rest := by
          rcases List.mem_cons.mp hmemn with he | hm
          · exfalso
            have hle : c.idx ≤ a.idx := (List.pairwise_cons.mp hsort).1 _ hma
            rw [← he, idx_neg_pos a ha] at hle
            omega
          · exact hm
        exact ih _ _ (List.pairwise_cons.mp hsort).2 hma hmn hrest

theorem scan_ok_spec (s : Solver) : ∀ (L : List Lit) (last : Lit)
    (kept res : List Lit),
    s.add_clause_scan L last kept = .ok res →
    List.Pairwise (fun x y => x.idx ≤ y.idx) L →
    ((kept = [] ∧ last = Lit.undef ∧ (∀ l ∈ L, l.idx < Lit.undef.idx)) ∨
      (last ∈ kept ∧ (∀ l ∈ L, last.idx ≤ l.idx) ∧
        (∀ x ∈ kept, x.idx ≤ last.idx))) →
    kept.Nodup →
    List.Pairwise (fun x y => x.idx ≤ y.idx) kept →
    (∀ x ∈ kept, s.value_lit x = lundef) →
    (res.Nodup ∧ List.Pairwise (fun x y => x.idx ≤ y.idx) res ∧
     (∀ x ∈ res, s.value_lit x = lundef) ∧
     (∀ x ∈ res, x ∈ kept ∨ x ∈ L) ∧
     (∀ l ∈ L, s.value_lit l ≠ lfalse → l ∈ res) ∧
     (∃ t, res = kept ++ t)) := by
  intro L
  induction L with
  | nil =>
    intro last kept res h _ _ hnd hpw hvals
    rw [Solver.add_clause_scan] at h
    cases h
    refine ⟨hnd, hpw, hvals, fun x hx => Or.inl hx, ?_, [], by simp⟩
    intro l hl
    cases hl
  | cons c rest ih =>
    intro last kept res h hsort hinv hnd hpw hvals
    have hsr := List.pairwise_cons.mp hsort
    rw [Solver.add_clause_scan] at h
    split_ifs at h with h1 h2
    · -- keep branch: c appended
      push_neg at h1
      have hvc : s.value_lit c = lundef :=
        lundef_of_not_true_false _ h1.1 h2.1
      have hkb : ∀ x ∈ kept, x.idx ≤ c.idx := by
        intro x hx
        rcases hinv with ⟨hk, _, _⟩ | ⟨hlm, hub, hkb⟩
        · rw [hk] at hx
          cases hx
        · exact Nat.le_trans (hkb x hx) (hub c (List.mem_cons_self _ _))
      have hcnk : c ∉ kept := by
        intro hx
        rcases hinv with ⟨hk, _, _⟩ | ⟨hlm, hub, hkb2⟩
        · rw [hk] at hx
          cases hx
        · have h1le : c.idx ≤ last.idx := hkb2 c hx
          have h2le : last.idx ≤ c.idx := hub c (List.mem_cons_self _ _)
          exact h2.2 (idx_inj c last (by omega))
      have hih := ih c (kept ++ [c]) res h hsr.2 (Or.inr ⟨by simp, ?_, ?_⟩)
        ?_ ?_ ?_
      rotate_left
      · intro l hl
        exact hsr.1 l hl
      · intro x hx
        rcases List.mem_append.mp hx with hx | hx
        · exact hkb x hx
        · rw [List.mem_singleton.mp hx]
      · exact (List.nodup_append).mpr ⟨hnd, List.nodup_singleton c,
          fun x hx hc => hcnk ((List.mem_singleton.mp hc) ▸ hx)⟩
      · refine (List.pairwise_append).mpr ⟨hpw, List.pairwise_singleton _ _, ?_⟩
        intro x hx y hy
        rw [List.mem_singleton.mp hy]
        exact hkb x hx
      · intro x hx
        rcases List.mem_append.mp hx with hx | hx
        · exact hvals x hx
        · rw [List.mem_singleton.mp hx]
          exact hvc
      obtain ⟨r1, r2, r3, r4, r5, t, ht⟩ := hih
      refine ⟨r1, r2, r3, ?_, ?_, ?_⟩
      · intro x hx
        rcases r4 x hx with hx2 | hx2
        · rcases List.mem_append.mp hx2 with hx3 | hx3
          · exact Or.inl hx3
          · rw [List.mem_singleton.mp hx3]
            exact Or.inr (List.mem_cons_self _ _)
        · exact Or.inr (List.mem_cons_of_mem _ hx2)
      · intro l hl hlv
        rcases List.mem_cons.mp hl with rfl | hl2
        · rw [ht]
          exact List.mem_append_left _ (List.mem_append_right _ (by simp))
        · exact r5 l hl2 hlv
      · exact ⟨[c] ++ t, by rw [ht, List.append_assoc]⟩
    · -- skip branch
      push_neg at h1
      have hinv2 : (kept = [] ∧ last = Lit.undef ∧
          (∀ l ∈ rest, l.idx < Lit.undef.idx)) ∨
          (last ∈ kept ∧ (∀ l ∈ rest, last.idx ≤ l.idx) ∧
            (∀ x ∈ kept, x.idx ≤ last.idx)) := by
        rcases hinv with ⟨hk, hu, hb⟩ | ⟨hlm, hub, hkb⟩
        · exact Or.inl ⟨hk, hu, fun l hl => hb l (List.mem_cons_of_mem _ hl)⟩
        · exact Or.inr ⟨hlm, fun l hl => hub l (List.mem_cons_of_mem _ hl), hkb⟩
      obtain ⟨r1, r2, r3, r4, r5, t, ht⟩ :=
        ih last kept res h hsr.2 hinv2 hnd hpw hvals
      refine ⟨r1, r2, r3, ?_, ?_, ⟨t, ht⟩⟩
      · intro x hx
        rcases r4 x hx with hx2 | hx2
        · exact Or.inl hx2
        · exact Or.inr (List.mem_cons_of_mem _ hx2)
      · intro l hl hlv
        rcases List.mem_cons.mp hl with rfl | hl2
        · -- the skipped head is not false, so it equals last, already kept
          have hcl : l = last := by
            by_contra hne
            exact h2 ⟨hlv, hne⟩
          subst hcl
          rcases hinv with ⟨hk, hu, hb⟩ | ⟨hlm, hub, hkb⟩
          · exfalso
            have := hb l (List.mem_cons_self _ _)
            rw [hu] at this
            omega
          · rw [ht]
            exact List.mem_append_left _ hlm
        · exact r5 l hl2 hlv

theorem litle_trans (a b c : Lit) : Lit.le a b → Lit.le b c → Lit.le a c := by
  simp [Lit.le]
  omega

theorem litle_total (a b : Lit) : Lit.le a b || Lit.le b a := by
  simp [Lit.le]
  omega

theorem sorted_clause (clause : List Lit) :
    (clause.mergeSort Lit.le).Pairwise (fun x y => x.idx ≤ y.idx) := by
  have h := List.sorted_mergeSort litle_trans litle_total clause
  exact h.imp (by simp [Lit.le])

/-- C4: the behaviour of `add_clause_reuse` at decision level 0, for a
clause of genuine literals. With `ok` false it is a no-op returning false.
Otherwise the vector is sorted and scanned: if it holds a true literal or a
complementary pair the call returns true changing nothing; the scan result
`kept` is the sorted vector with duplicates and false literals removed
(duplicate-free, all unassigned, containing every non-false literal); an
empty simplification latches `ok := false` and returns false, a singleton
is enqueued with reason UNDEF at level 0, and a longer clause is allocated,
pushed and attached. The call returns false exactly when `ok` was false or
the simplified clause is empty. -/
theorem claim_C4_add_clause_reuse (s : Solver) (clause : List Lit)
    (hlvl : s.trail_lim = [])
    (hreal : ∀ l ∈ clause, l.v < 2147483647) :
    (s.ok = false → s.add_clause_reuse clause = (false, s, clause)) ∧
    (s.ok = true →
      ((∃ l ∈ clause, s.value_lit l = ltrue) ∨
        (∃ l ∈ clause, l.neg ∈ clause)) →
      (s.add_clause_reuse clause).1 = true ∧
      (s.add_clause_reuse clause).2.1 = s) ∧
    (s.ok = true → ∀ kept : List Lit,
      s.add_clause_scan (clause.mergeSort Lit.le) Lit.undef [] = .ok kept →
      (kept.Nodup ∧ (∀ l ∈ kept, l ∈ clause) ∧
       (∀ l ∈ kept, s.value_lit l = lundef) ∧
       (∀ l ∈ clause, s.value_lit l ≠ lfalse → l ∈ kept) ∧
       List.Pairwise (fun x y => x.idx ≤ y.idx) kept ∧
       (s.add_clause_reuse clause).2.2 = kept ∧
       (kept = [] →
         s.add_clause_reuse clause = (false, { s with ok := false }, [])) ∧
       (∀ l0 : Lit, kept = [l0] →
         s.add_clause_reuse clause =
           (true, s.unchecked_enqueue l0 crefUndef, [l0]) ∧
         (s.unchecked_enqueue l0 crefUndef).trail = s.trail ++ [l0] ∧
         (s.unchecked_enqueue l0 crefUndef).vardata l0.v =
           VarData.mk crefUndef 0) ∧
       (2 ≤ kept.length →
         s.add_clause_reuse clause =
           (true, Solver.attach_clause
             { s with ca := s.ca.alloc kept false,
                      clauses := s.clauses ++ [s.ca.clauses.length] }
             s.ca.clauses.length, kept)))) ∧
    ((s.add_clause_reuse clause).1 = false ↔
      (s.ok = false ∨
        s.add_clause_scan (clause.mergeSort Lit.le) Lit.undef [] =
          .ok [])) := by
  refine ⟨?_, ?_, ?_, ?_⟩
  · intro hok
    unfold Solver.add_clause_reuse
    rw [if_pos hok]
  · intro hok hex
    have herr : ∃ k, s.add_clause_scan (clause.mergeSort Lit.le)
        Lit.undef [] = .error k := by
      by_cases hT : ∃ l ∈ clause.mergeSort Lit.le, s.value_lit l = ltrue
      · exact scan_error_of_mem_true s _ _ _ hT
      · push_neg at hT
        rcases hex with ⟨l, hl, hv⟩ | ⟨l, hl, hln⟩
        · exact absurd (hT l (List.mem_mergeSort.mpr hl)) (by simp [hv])
        · by_cases hls : l.s = false
          · exact scan_error_taut s l hls _ Lit.undef _ (sorted_clause clause)
              (List.mem_mergeSort.mpr hl) (List.mem_mergeSort.mpr hln) hT
          · refine scan_error_taut s l.neg (by simp [Lit.neg, hls]) _
              Lit.undef _ (sorted_clause clause)
              (List.mem_mergeSort.mpr hln) ?_ hT
            rw [neg_neg_lit]
            exact List.mem_mergeSort.mpr hl
    obtain ⟨k, hk⟩ := herr
    unfold Solver.add_clause_reuse
    rw [if_neg (by simp [hok])]
    dsimp only
    rw [hk]
    exact ⟨rfl, rfl⟩
  · intro hok kept hscan
    have hbound : ∀ l ∈ clause.mergeSort Lit.le, l.idx < Lit.undef.idx := by
      intro l hl
      have hv := hreal l (List.mem_mergeSort.mp hl)
      cases hs : l.s <;> simp [Lit.idx, Lit.undef, hs] <;> omega
    obtain ⟨r1, r2, r3, r4, r5, t, ht⟩ := scan_ok_spec s _ Lit.undef [] kept
      hscan (sorted_clause clause) (Or.inl ⟨rfl, rfl, hbound⟩)
      List.nodup_nil (List.Pairwise.nil) (by intro x hx; cases hx)
    have hveq : (s.add_clause_reuse clause).2.2 = kept := by
      unfold Solver.add_clause_reuse
      rw [if_neg (by simp [hok])]
      dsimp only
      rw [hscan]
      dsimp only
      split_ifs <;> rfl
    refine ⟨r1, ?_, r3, ?_, r2, hveq, ?_, ?_, ?_⟩
    · intro l hl
      rcases r4 l hl with hl2 | hl2
      · cases hl2
      · exact List.mem_mergeSort.mp hl2
    · intro l hl hlv
      exact r5 l (List.mem_mergeSort.mpr hl) hlv
    · intro hke
      subst hke
      unfold Solver.add_clause_reuse
      rw [if_neg (by simp [hok])]
      dsimp only
      rw [hscan]
      rfl
    · intro l0 hke
      subst hke
      refine ⟨?_, rfl, ?_⟩
      · unfold Solver.add_clause_reuse
        rw [if_neg (by simp [hok])]
        dsimp only
        rw [hscan]
        rfl
      · unfold Solver.unchecked_enqueue
        simp [Function.update_same, Solver.decision_level, hlvl]
    · intro h2le
      unfold Solver.add_clause_reuse
      rw [if_neg (by simp [hok])]
      dsimp only
      rw [hscan]
      dsimp only
      rw [if_neg (by omega), if_neg (by omega)]
  · by_cases hok : s.ok = true
    · unfold Solver.add_clause_reuse
      rw [if_neg (by simp [hok])]
      dsimp only
      cases hscan : s.add_clause_scan (clause.mergeSort Lit.le)
          Lit.undef [] with
      | error k =>
        simp [hok]
      | ok kept =>
        dsimp only
        split_ifs with hl0 hl1
        · simp [List.length_eq_zero.mp hl0, hok]
        · have : kept ≠ [] := by
            intro hke
            rw [hke] at hl1
            simp at hl1
          simp [hok, this]
        · have : kept ≠ [] := by
            intro hke
            rw [hke] at hl0
            simp at hl0
          simp [hok, this]
    · have hokf : s.ok = false := by
        cases hv : s.ok
        · rfl
        · exact absurd hv hok
      unfold Solver.add_clause_reuse
      rw [if_pos hokf]
      simp [hokf]

/-- Witness for the C4 theorem: instantiated on `baseSolver` (decision
level 0) and the concrete clause `[x1, x0, x0]`, whose hypotheses hold by
computation. -/
theorem claim_C4_witness :
    (baseSolver.add_clause_reuse [⟨1, false⟩, ⟨0, false⟩, ⟨0, false⟩]).1
        = false ↔
      (baseSolver.ok = false ∨
        baseSolver.add_clause_scan
          ([⟨1, false⟩, ⟨0, false⟩,
            ⟨0, false⟩].mergeSort Lit.le) Lit.undef [] = .ok []) :=
  (claim_C4_add_clause_reuse baseSolver _ rfl (by decide)).2.2.2

/-- C5, counterexample: on the concrete state `exC5` (one pending trail
literal, an attached two-literal clause, `simp_db_props = 10`), `simplify`
takes the budget early return and yields true, yet the trail is not the
entry trail: the initial propagation run inside `simplify` has already
enqueued a new literal. The claim, which promises an unchanged trail on
this path, is false. -/
theorem claim_C5_counterexample :
    exC5run.map (fun r => (r.1, r.2.trail, r.2.simp_db_props)) =
      some (true, [⟨0, false⟩, ⟨1, false⟩], 8) ∧
    exC5.trail = [⟨0, false⟩] ∧
    exC5run.map (fun r => r.2.trail) ≠ some exC5.trail := by
  refine ⟨by decide, by decide, by decide⟩

/-- C5 (amended): `simplify` returns false latching `ok := false` when `ok`
is already false or the initial propagation conflicts; when the budgets are
not yet exhausted (assignment count equal to `simp_db_assigns`, or
`simp_db_props` still positive, both measured after that propagation) it
returns true with the state exactly as the propagation left it (so
unchanged except for propagation effects); and a full run ends with
`simp_db_assigns = num_assigns` and
`simp_db_props = clauses_literals + learnts_literals`. -/
theorem claim_C5_simplify (fuel : Nat) (s : Solver) :
    (s.ok = false →
      Solver.simplifyF fuel s = .ok (false, { s with ok := false })) ∧
    (∀ (c : Nat) (s1 : Solver), s.ok = true →
      Solver.propagateF fuel s = .ok (c, s1) → c ≠ crefUndef →
      Solver.simplifyF fuel s = .ok (false, { s1 with ok := false })) ∧
    (∀ s1 : Solver, s.ok = true →
      Solver.propagateF fuel s = .ok (crefUndef, s1) →
      ((s1.trail.length : Int) = s1.simp_db_assigns ∨ s1.simp_db_props > 0) →
      Solver.simplifyF fuel s = .ok (true, s1)) ∧
    (∀ s1 : Solver, s.ok = true →
      Solver.propagateF fuel s = .ok (crefUndef, s1) →
      ¬((s1.trail.length : Int) = s1.simp_db_assigns ∨
          s1.simp_db_props > 0) →
      ∃ s2, Solver.simplifyF fuel s = .ok (true, s2) ∧
        s2.simp_db_assigns = (s2.trail.length : Int) ∧
        s2.simp_db_props =
          ((s2.clauses_literals + s2.learnts_literals : Nat) : Int)) := by
  refine ⟨?_, ?_, ?_, ?_⟩
  · intro hok
    unfold Solver.simplifyF
    rw [if_pos hok]
  · intro c s1 hok hprop hc
    unfold Solver.simplifyF
    rw [if_neg (by simp [hok]), hprop]
    dsimp only
    rw [if_pos hc]
  · intro s1 hok hprop hbudget
    unfold Solver.simplifyF
    rw [if_neg (by simp [hok]), hprop]
    dsimp only
    rw [if_neg (by simp), if_pos hbudget]
  · intro s1 hok hprop hbudget
    unfold Solver.simplifyF
    rw [if_neg (by simp [hok]), hprop]
    dsimp only
    rw [if_neg (by simp), if_neg hbudget]
    exact ⟨_, rfl, rfl, rfl⟩

/-- Witness for the C5 theorem: on the concrete state `exOff` (`ok` is
false) `simplify` returns false without touching anything. -/
theorem claim_C5_witness :
    Solver.simplifyF 1 exOff = .ok (false, { exOff with ok := false }) :=
  (claim_C5_simplify 1 exOff).1 rfl

theorem remove_clause_proj (s : Solver) (cr : Nat) :
    (s.remove_clause cr).clauses = s.clauses ∧
    (s.remove_clause cr).learnts = s.learnts ∧
    (s.remove_clause cr).trail = s.trail ∧
    (s.remove_clause cr).qhead = s.qhead ∧
    (s.remove_clause cr).released_vars = s.released_vars ∧
    (s.remove_clause cr).free_vars = s.free_vars ∧
    (s.remove_clause cr).seen = s.seen ∧
    (s.remove_clause cr).assigns = s.assigns ∧
    (s.remove_clause cr).remove_satisfied = s.remove_satisfied := by
  unfold Solver.remove_clause Solver.detach_clause Solver.detach_clause_lazy
    Solver.smudge
  dsimp only
  split_ifs <;> exact ⟨rfl, rfl, rfl, rfl, rfl, rfl, rfl, rfl, rfl⟩

theorem remove_clause_ca_at_ne (s : Solver) (cr cr2 : Nat) (h : cr2 ≠ cr) :
    (s.remove_clause cr).ca.getC cr2 = s.ca.getC cr2 := by
  unfold CAlloc.getC
  rw [remove_clause_ca_clauses]
  exact getD_set_ne _ _ _ _ _ (fun he => h he.symm)

theorem satisfied_congr (s1 s2 : Solver) (c : Clause)
    (h : s2.assigns = s1.assigns) :
    s2.satisfiedClause c = s1.satisfiedClause c := by
  unfold Solver.satisfiedClause Solver.value_lit
  rw [h]

theorem rsLoop_proj : ∀ (crs : List Nat) (s : Solver),
    (Solver.remove_satisfied_loop s crs).1.clauses = s.clauses ∧
    (Solver.remove_satisfied_loop s crs).1.learnts = s.learnts ∧
    (Solver.remove_satisfied_loop s crs).1.trail = s.trail ∧
    (Solver.remove_satisfied_loop s crs).1.qhead = s.qhead ∧
    (Solver.remove_satisfied_loop s crs).1.released_vars = s.released_vars ∧
    (Solver.remove_satisfied_loop s crs).1.free_vars = s.free_vars ∧
    (Solver.remove_satisfied_loop s crs).1.seen = s.seen ∧
    (Solver.remove_satisfied_loop s crs).1.assigns = s.assigns ∧
    (Solver.remove_satisfied_loop s crs).1.remove_satisfied
      = s.remove_satisfied := by
  intro crs
  induction crs with
  | nil =>
    intro s
    exact ⟨rfl, rfl, rfl, rfl, rfl, rfl, rfl, rfl, rfl⟩
  | cons cr rest ih =>
    intro s
    rw [Solver.remove_satisfied_loop]
    split_ifs with h1
    · obtain ⟨e1, e2, e3, e4, e5, e6, e7, e8, e9⟩ := ih (s.remove_clause cr)
      obtain ⟨f1, f2, f3, f4, f5, f6, f7, f8, f9⟩ := remove_clause_proj s cr
      exact ⟨e1.trans f1, e2.trans f2, e3.trans f3, e4.trans f4, e5.trans f5,
        e6.trans f6, e7.trans f7, e8.trans f8, e9.trans f9⟩
    · dsimp only
      obtain ⟨e1, e2, e3, e4, e5, e6, e7, e8, e9⟩ := ih _
      exact ⟨e1, e2, e3, e4, e5, e6, e7, e8, e9⟩

theorem rsLoop_ca_at_notin : ∀ (crs : List Nat) (s : Solver) (cr2 : Nat),
    cr2 ∉ crs →
    (Solver.remove_satisfied_loop s crs).1.ca.getC cr2 = s.ca.getC cr2 := by
  intro crs
  induction crs with
  | nil =>
    intro s cr2 _
    rfl
  | cons cr rest ih =>
    intro s cr2 hnm
    have hne : cr2 ≠ cr := fun he => hnm (he ▸ List.mem_cons_self _ _)
    have hnr : cr2 ∉ rest := fun hm => hnm (List.mem_cons_of_mem _ hm)
    rw [Solver.remove_satisfied_loop]
    split_ifs with h1
    · rw [ih _ _ hnr]
      exact remove_clause_ca_at_ne s cr cr2 hne
    · dsimp only
      rw [ih _ _ hnr]
      unfold CAlloc.getC CAlloc.setC CAlloc.freeAmount
      dsimp only
      exact getD_set_ne _ _ _ _ _ (fun he => hne he.symm)

theorem set_of_ge_length {α : Type} (l : List α) (i : Nat) (a : α)
    (h : l.length ≤ i) : l.set i a = l := by
  induction l generalizing i with
  | nil => rfl
  | cons b t ih =>
    cases i with
    | zero => simp at h
    | succ i =>
      simp only [List.set]
      rw [ih i (by simpa using h)]

theorem trim_state_ca_at_ne (s : Solver) (cr cr2 : Nat) (c2 : Clause)
    (n : Nat) (h : cr2 ≠ cr) :
    ((s.ca.setC cr c2).freeAmount n).getC cr2 = s.ca.getC cr2 := by
  unfold CAlloc.getC CAlloc.setC CAlloc.freeAmount
  dsimp only
  exact getD_set_ne _ _ _ _ _ (fun he => h he.symm)

theorem rsLoop_kept : ∀ (crs : List Nat) (s : Solver), crs.Nodup →
    (Solver.remove_satisfied_loop s crs).2 =
      crs.filter (fun cr => !s.satisfiedClause (s.ca.getC cr)) := by
  intro crs
  induction crs with
  | nil =>
    intro s _
    rfl
  | cons cr rest ih =>
    intro s hnd
    have hcr : cr ∉ rest := (List.nodup_cons.mp hnd).1
    have hndr : rest.Nodup := (List.nodup_cons.mp hnd).2
    rw [Solver.remove_satisfied_loop]
    split_ifs with h1
    · rw [List.filter_cons_of_neg (by simp [h1])]
      rw [ih _ hndr]
      refine List.filter_congr ?_
      intro cr2 hm
      have hne : cr2 ≠ cr := fun he => hcr (he ▸ hm)
      rw [remove_clause_ca_at_ne s cr cr2 hne,
        satisfied_congr s _ _ (remove_clause_proj s cr).2.2.2.2.2.2.2.1]
    · dsimp only
      rw [List.filter_cons_of_pos (by simp [h1])]
      rw [ih _ hndr]
      congr 1
      refine List.filter_congr ?_
      intro cr2 hm
      have hne : cr2 ≠ cr := fun he => hcr (he ▸ hm)
      rw [trim_state_ca_at_ne s cr cr2 _ _ hne]
      exact congrArg (fun b => !b) (satisfied_congr s _ (s.ca.getC cr2) rfl)

theorem rsLoop_mark_kept : ∀ (crs : List Nat) (s : Solver) (cr : Nat),
    crs.Nodup → cr ∈ crs → s.satisfiedClause (s.ca.getC cr) = false →
    ((Solver.remove_satisfied_loop s crs).1.ca.getC cr).mark
      = (s.ca.getC cr).mark := by
  intro crs
  induction crs with
  | nil =>
    intro s cr _ hm _
    cases hm
  | cons c rest ih =>
    intro s cr hnd hm hsat
    have hc : c ∉ rest := (List.nodup_cons.mp hnd).1
    have hndr : rest.Nodup := (List.nodup_cons.mp hnd).2
    rw [Solver.remove_satisfied_loop]
    rcases List.mem_cons.mp hm with rfl | hmr
    · rw [if_neg (by simp [hsat])]
      dsimp only
      rw [rsLoop_ca_at_notin rest _ cr hc]
      unfold CAlloc.getC CAlloc.setC CAlloc.freeAmount
      dsimp only
      by_cases hlt : cr < s.ca.clauses.length
      · rw [getD_set_self _ _ _ _ hlt]
      · rw [set_of_ge_length _ _ _ (by omega)]
    · have hne : cr ≠ c := fun he => hc (he ▸ hmr)
      split_ifs with h1
      · rw [ih _ _ hndr hmr]
        · exact congrArg Clause.mark (remove_clause_ca_at_ne s c cr hne)
        · rw [remove_clause_ca_at_ne s c cr hne,
            satisfied_congr s _ _ (remove_clause_proj s c).2.2.2.2.2.2.2.1]
          exact hsat
      · dsimp only
        rw [ih _ _ hndr hmr]
        · exact congrArg Clause.mark (trim_state_ca_at_ne s c cr _ _ hne)
        · rw [trim_state_ca_at_ne s c cr _ _ hne]
          exact hsat

theorem caReloc_getC_mark (ca toA : CAlloc) (cr cr2 : Nat) :
    ((Solver.caReloc ca toA cr).1.getC cr2).mark = (ca.getC cr2).mark := by
  unfold Solver.caReloc
  dsimp only
  split_ifs with h
  · rfl
  · unfold CAlloc.getC CAlloc.setC
    dsimp only
    by_cases he : cr2 = cr
    · subst he
      by_cases hlt : cr2 < ca.clauses.length
      · rw [getD_set_self _ _ _ _ hlt]
      · rw [set_of_ge_length _ _ _ (by omega)]
    · rw [getD_set_ne _ _ _ _ _ (fun x => he x.symm)]

theorem relocWatcherList_mark : ∀ (ws : List Watcher) (ca toA : CAlloc)
    (cr2 : Nat),
    ((Solver.relocWatcherList ca toA ws).1.getC cr2).mark
      = (ca.getC cr2).mark := by
  intro ws
  induction ws with
  | nil =>
    intro ca toA cr2
    rfl
  | cons w rest ih =>
    intro ca toA cr2
    rw [Solver.relocWatcherList]
    dsimp only
    rw [ih]
    exact caReloc_getC_mark ca toA w.cref cr2

theorem relocLits_mark : ∀ (L : List Lit) (watches : Lit → List Watcher)
    (ca toA : CAlloc) (cr2 : Nat),
    ((Solver.relocLits watches ca toA L).2.1.getC cr2).mark
      = (ca.getC cr2).mark := by
  intro L
  induction L with
  | nil =>
    intro watches ca toA cr2
    rfl
  | cons p rest ih =>
    intro watches ca toA cr2
    rw [Solver.relocLits]
    rw [ih]
    exact relocWatcherList_mark (watches p) ca toA cr2

theorem relocReasons_spec : ∀ (L : List Lit) (s : Solver) (toA : CAlloc),
    ((Solver.relocReasonsLoop s toA L).1.trail = s.trail ∧
     (Solver.relocReasonsLoop s toA L).1.qhead = s.qhead ∧
     (Solver.relocReasonsLoop s toA L).1.clauses = s.clauses ∧
     (Solver.relocReasonsLoop s toA L).1.learnts = s.learnts ∧
     (Solver.relocReasonsLoop s toA L).1.released_vars = s.released_vars ∧
     (Solver.relocReasonsLoop s toA L).1.free_vars = s.free_vars ∧
     (Solver.relocReasonsLoop s toA L).1.seen = s.seen ∧
     (Solver.relocReasonsLoop s toA L).1.remove_satisfied
        = s.remove_satisfied) ∧
    (∀ cr2 : Nat, ((Solver.relocReasonsLoop s toA L).1.ca.getC cr2).mark
        = (s.ca.getC cr2).mark) := by
  intro L
  induction L with
  | nil =>
    intro s toA
    exact ⟨⟨rfl, rfl, rfl, rfl, rfl, rfl, rfl, rfl⟩, fun _ => rfl⟩
  | cons lit rest ih =>
    intro s toA
    rw [Solver.relocReasonsLoop]
    split_ifs with h1
    · obtain ⟨⟨e1, e2, e3, e4, e5, e6, e7, e8⟩, emk⟩ := ih _ _
      refine ⟨⟨e1, e2, e3, e4, e5, e6, e7, e8⟩, ?_⟩
      intro cr2
      rw [emk]
      exact caReloc_getC_mark s.ca toA _ cr2
    · exact ih _ _

theorem reloc_all_spec (s : Solver) (toA : CAlloc)
    (hcm : ∀ cr ∈ s.clauses, (s.ca.getC cr).mark ≠ 1)
    (hlm : ∀ cr ∈ s.learnts, (s.ca.getC cr).mark ≠ 1) :
    (s.reloc_all toA).1.trail = s.trail ∧
    (s.reloc_all toA).1.qhead = s.qhead ∧
    (s.reloc_all toA).1.clauses = s.clauses ∧
    (s.reloc_all toA).1.learnts = s.learnts ∧
    (s.reloc_all toA).1.released_vars = s.released_vars ∧
    (s.reloc_all toA).1.free_vars = s.free_vars ∧
    (s.reloc_all toA).1.seen = s.seen ∧
    (s.reloc_all toA).1.remove_satisfied = s.remove_satisfied := by
  unfold Solver.reloc_all
  dsimp only
  refine ⟨?_, ?_, ?_, ?_, ?_, ?_, ?_, ?_⟩
  · rw [(relocReasons_spec _ _ _).1.1]
    rfl
  · rw [(relocReasons_spec _ _ _).1.2.1]
    rfl
  · rw [(relocReasons_spec _ _ _).1.2.2.1]
    refine List.filter_eq_self.mpr ?_
    intro cr hm
    rw [(relocReasons_spec _ _ _).2 cr, relocLits_mark]
    simpa using hcm cr hm
  · rw [(relocReasons_spec _ _ _).1.2.2.2.1]
    refine List.filter_eq_self.mpr ?_
    intro cr hm
    rw [(relocReasons_spec _ _ _).2 cr, relocLits_mark]
    simpa using hlm cr hm
  · rw [(relocReasons_spec _ _ _).1.2.2.2.2.1]
    rfl
  · rw [(relocReasons_spec _ _ _).1.2.2.2.2.2.1]
    rfl
  · rw [(relocReasons_spec _ _ _).1.2.2.2.2.2.2.1]
    rfl
  · rw [(relocReasons_spec _ _ _).1.2.2.2.2.2.2.2]
    rfl

theorem garbage_collect_spec (s : Solver)
    (hcm : ∀ cr ∈ s.clauses, (s.ca.getC cr).mark ≠ 1)
    (hlm : ∀ cr ∈ s.learnts, (s.ca.getC cr).mark ≠ 1) :
    s.garbage_collect.trail = s.trail ∧
    s.garbage_collect.qhead = s.qhead ∧
    s.garbage_collect.clauses = s.clauses ∧
    s.garbage_collect.learnts = s.learnts ∧
    s.garbage_collect.released_vars = s.released_vars ∧
    s.garbage_collect.free_vars = s.free_vars ∧
    s.garbage_collect.seen = s.seen ∧
    s.garbage_collect.remove_satisfied = s.remove_satisfied :=
  reloc_all_spec s ⟨[], 0⟩ hcm hlm

theorem check_garbage_spec (s : Solver)
    (hcm : ∀ cr ∈ s.clauses, (s.ca.getC cr).mark ≠ 1)
    (hlm : ∀ cr ∈ s.learnts, (s.ca.getC cr).mark ≠ 1) :
    s.check_garbage.trail = s.trail ∧
    s.check_garbage.qhead = s.qhead ∧
    s.check_garbage.clauses = s.clauses ∧
    s.check_garbage.learnts = s.learnts ∧
    s.check_garbage.released_vars = s.released_vars ∧
    s.check_garbage.free_vars = s.free_vars ∧
    s.check_garbage.seen = s.seen ∧
    s.check_garbage.remove_satisfied = s.remove_satisfied := by
  unfold Solver.check_garbage
  split_ifs with h
  · exact garbage_collect_spec s hcm hlm
  · exact ⟨rfl, rfl, rfl, rfl, rfl, rfl, rfl, rfl⟩

/-- C6: on a full run of `simplify` whose state after the initial
propagation has `remove_satisfied = false`, the satisfied clauses are
filtered only out of `learnts`; the `clauses` list is left as it was
(its satisfied members stay), and the released-variable / trail filtering
is skipped, so `trail`, `qhead`, `released_vars`, `free_vars` and `seen`
come back unchanged. Stated under the reachable-state side conditions the
code relies on: `learnts` holds no duplicates, no listed clause is already
marked deleted, and no reference sits on both lists. -/
theorem claim_C6_remove_satisfied_false (fuel : Nat) (s s1 : Solver)
    (hok : s.ok = true)
    (hprop : Solver.propagateF fuel s = .ok (crefUndef, s1))
    (hbudget : ¬((s1.trail.length : Int) = s1.simp_db_assigns ∨
      s1.simp_db_props > 0))
    (hrs : s1.remove_satisfied = false)
    (hnd : s1.learnts.Nodup)
    (hcm : ∀ cr ∈ s1.clauses, (s1.ca.getC cr).mark ≠ 1)
    (hlm : ∀ cr ∈ s1.learnts, (s1.ca.getC cr).mark ≠ 1)
    (hdisj : ∀ cr ∈ s1.clauses, cr ∉ s1.learnts) :
    ∃ s2, Solver.simplifyF fuel s = .ok (true, s2) ∧
      s2.clauses = s1.clauses ∧
      s2.learnts = s1.learnts.filter
        (fun cr => !s1.satisfiedClause (s1.ca.getC cr)) ∧
      s2.trail = s1.trail ∧
      s2.qhead = s1.qhead ∧
      s2.released_vars = s1.released_vars ∧
      s2.free_vars = s1.free_vars ∧
      s2.seen = s1.seen := by
  have hproj := rsLoop_proj s1.learnts s1
  have hcl : (s1.remove_satisfied_fn true).clauses = s1.clauses := hproj.1
  have hlea : (s1.remove_satisfied_fn true).learnts =
      s1.learnts.filter (fun cr => !s1.satisfiedClause (s1.ca.getC cr)) :=
    rsLoop_kept s1.learnts s1 hnd
  have htr : (s1.remove_satisfied_fn true).trail = s1.trail := hproj.2.2.1
  have hqh : (s1.remove_satisfied_fn true).qhead = s1.qhead := hproj.2.2.2.1
  have hrel : (s1.remove_satisfied_fn true).released_vars
      = s1.released_vars := hproj.2.2.2.2.1
  have hfv : (s1.remove_satisfied_fn true).free_vars = s1.free_vars :=
    hproj.2.2.2.2.2.1
  have hseen : (s1.remove_satisfied_fn true).seen = s1.seen :=
    hproj.2.2.2.2.2.2.1
  have hf : (s1.remove_satisfied_fn true).remove_satisfied = false :=
    hproj.2.2.2.2.2.2.2.2.trans hrs
  have hca_cl : ∀ cr ∈ (s1.remove_satisfied_fn true).clauses,
      (((s1.remove_satisfied_fn true).ca.getC cr)).mark ≠ 1 := by
    intro cr hm
    rw [hcl] at hm
    show ((Solver.remove_satisfied_loop s1 s1.learnts).1.ca.getC cr).mark ≠ 1
    rw [rsLoop_ca_at_notin s1.learnts s1 cr (hdisj cr hm)]
    exact hcm cr hm
  have hca_le : ∀ cr ∈ (s1.remove_satisfied_fn true).learnts,
      (((s1.remove_satisfied_fn true).ca.getC cr)).mark ≠ 1 := by
    intro cr hm
    rw [hlea] at hm
    obtain ⟨hmem, hsat⟩ := List.mem_filter.mp hm
    show ((Solver.remove_satisfied_loop s1 s1.learnts).1.ca.getC cr).mark ≠ 1
    rw [rsLoop_mark_kept s1.learnts s1 cr hnd hmem (by simpa using hsat)]
    exact hlm cr hmem
  have hcg := check_garbage_spec (s1.remove_satisfied_fn true) hca_cl hca_le
  unfold Solver.simplifyF
  rw [if_neg (by simp [hok]), hprop]
  dsimp only
  rw [if_neg (by simp), if_neg hbudget]
  rw [if_neg (by simp [hf])]
  refine ⟨_, rfl, ?_, ?_, ?_, ?_, ?_, ?_, ?_⟩
  · show (Solver.check_garbage (s1.remove_satisfied_fn true)).clauses
      = s1.clauses
    rw [hcg.2.2.1, hcl]
  · show (Solver.check_garbage (s1.remove_satisfied_fn true)).learnts
      = s1.learnts.filter (fun cr => !s1.satisfiedClause (s1.ca.getC cr))
    rw [hcg.2.2.2.1, hlea]
  · show (Solver.check_garbage (s1.remove_satisfied_fn true)).trail
      = s1.trail
    rw [hcg.1, htr]
  · show (Solver.check_garbage (s1.remove_satisfied_fn true)).qhead
      = s1.qhead
    rw [hcg.2.1, hqh]
  · show (Solver.check_garbage (s1.remove_satisfied_fn true)).released_vars
      = s1.released_vars
    rw [hcg.2.2.2.2.1, hrel]
  · show (Solver.check_garbage (s1.remove_satisfied_fn true)).free_vars
      = s1.free_vars
    rw [hcg.2.2.2.2.2.1, hfv]
  · show (Solver.check_garbage (s1.remove_satisfied_fn true)).seen
      = s1.seen
    rw [hcg.2.2.2.2.2.2.1, hseen]

/-- Witness for the C6 theorem: on `exC6` the full `simplify` run keeps
the (empty) input clause list, filters the satisfied learnt clause out of
`learnts`, and leaves the trail, queue head, released variables, free
variables and seen flags untouched. -/
theorem claim_C6_witness :
    ∃ s2, Solver.simplifyF 1 exC6 = .ok (true, s2) ∧
      s2.clauses = exC6res.clauses ∧
      s2.learnts = exC6res.learnts.filter
        (fun cr => !exC6res.satisfiedClause (exC6res.ca.getC cr)) ∧
      s2.trail = exC6res.trail ∧
      s2.qhead = exC6res.qhead ∧
      s2.released_vars = exC6res.released_vars ∧
      s2.free_vars = exC6res.free_vars ∧
      s2.seen = exC6res.seen :=
  claim_C6_remove_satisfied_false 1 exC6 exC6res rfl rfl (by decide)
    (by decide) (by decide) (by decide) (by decide) (by decide)

end Ratsat
